import Mathlib

/-!
# Charger uptime: a shallow embedding of the Go sources

The definitions below follow `types.go`, `uptime.go` and `parser.go`.

* `uint32` / `uint64` values are natural numbers; every `uint64` operation that
  can wrap in Go is written with an explicit reduction modulo `2 ^ 64`.
* A Go `map[uint32]V` is an association list with first-match lookup; the order
  of the entries plays the role of Go's (unspecified) map iteration order. A map
  has distinct keys, which theorems about iteration state as `(mapKeys m).Nodup`.
* `fail()` prints `ERROR` and exits the process; a function that can reach it
  returns `Option`, and `none` is that outcome.
* A Go string is a list of characters (valid UTF-8 text).
* `parseInput` and `main` start from an opened file: their input is the list of lines
  the `bufio.Scanner` yields together with a flag for `scanner.Err()`; the argument
  count check of `main` and the failure of `os.Open` are outside the embedding.
* `scanFile` is the scanner itself on the raw lines of a readable file: it yields the
  lines below the token limit of 64 KiB and stops with an error at the first longer
  one; `parseInputFile` is `parseInput` behind it.
* `sort.Slice` is insertion sort for the order its comparator induces. For the up
  intervals `sorted_arrangement_unique` shows that every sorted arrangement is the
  same list, so the choice of algorithm does not matter; station ids are distinct.
-/

namespace ChargerUptime

/-! ## Machine arithmetic -/

/-- Number of values of a Go `uint64`. -/
def u64Size : Nat := 2 ^ 64

/-- Go `a - b` on `uint64` operands (wraps around below zero). -/
def subU64 (a b : Nat) : Nat := (a + u64Size - b) % u64Size

/-- Go `a + b` on `uint64` operands (wraps around at `2 ^ 64`). -/
def addU64 (a b : Nat) : Nat := (a + b) % u64Size

/-! ## Model (`types.go`) -/

/-- The struct `Report` of `types.go`; the field `end` is spelled `end_`. -/
structure Report where
  start : Nat
  end_ : Nat
  up : Bool
deriving DecidableEq, Repr

/-- The struct `StationResult` of `types.go`. -/
structure StationResult where
  StationID : Nat
  UptimePct : Nat
deriving DecidableEq, Repr

/-- Both timestamps of a report are `uint64` values. -/
def Report.InRange (r : Report) : Prop := r.start < u64Size ∧ r.end_ < u64Size

instance (r : Report) : Decidable r.InRange := by
  unfold Report.InRange; exact inferInstance

/-- A Go map with `uint32` keys, as an association list. -/
abbrev GoMap (V : Type) := List (Nat × V)

/-- The comma-ok lookup `v, ok := m[k]`. -/
def mapGet {V : Type} (m : GoMap V) (k : Nat) : Option V := List.lookup k m

/-- The keys of a map, in iteration order. -/
def mapKeys {V : Type} (m : GoMap V) : List Nat := m.map Prod.fst

/-- The test `_, exists := m[k]`. -/
def mapHas {V : Type} (m : GoMap V) (k : Nat) : Bool := (mapGet m k).isSome

/-- The assignment `m[k] = v`: replaces the value of an existing key, or adds the key. -/
def mapSet {V : Type} : GoMap V → Nat → V → GoMap V
  | [], k, v => [(k, v)]
  | (k0, v0) :: rest, k, v =>
      if k == k0 then (k0, v) :: rest else (k0, v0) :: mapSet rest k v

/-- The expression `chargerReports[cid]`: a missing key reads as the nil slice. -/
def reportsOf (chargerReports : GoMap (List Report)) (cid : Nat) : List Report :=
  (mapGet chargerReports cid).getD []

/-- The expression `stationToChargers[sid]`: a missing key reads as the nil slice. -/
def chargersOf (stationToChargers : GoMap (List Nat)) (sid : Nat) : List Nat :=
  (mapGet stationToChargers sid).getD []

/-- The function `computePercentage` of `types.go`: the product and the quotient are taken in
`math/big`, and `Uint64()` keeps the low 64 bits of the quotient. -/
def computePercentage (totalUp totalWindow : Nat) : Nat :=
  if totalWindow = 0 then 0
  else (totalUp * 100 / totalWindow) % u64Size

/-! ## Uptime engine (`uptime.go`) -/

/-- The local variables of the scanning loops of `computeStationUptime`. -/
structure ScanState where
  minStart : Nat
  maxEnd : Nat
  minStartSet : Bool
  maxEndSet : Bool
  upIntervals : List Report
  hasAnyReports : Bool
deriving DecidableEq, Repr

/-- The variables as declared before the loops (zero values, empty slice). -/
def scanInit : ScanState :=
  { minStart := 0, maxEnd := 0, minStartSet := false, maxEndSet := false,
    upIntervals := [], hasAnyReports := false }

/-- One iteration of the inner loop `for _, r := range reps`. -/
def scanReport (st : ScanState) (r : Report) : ScanState :=
  let st1 : ScanState := { st with hasAnyReports := true }
  let st2 : ScanState :=
    if (!st1.minStartSet) || decide (r.start < st1.minStart) then
      { st1 with minStart := r.start, minStartSet := true }
    else st1
  let st3 : ScanState :=
    if (!st2.maxEndSet) || decide (r.end_ > st2.maxEnd) then
      { st2 with maxEnd := r.end_, maxEndSet := true }
    else st2
  if r.up then { st3 with upIntervals := st3.upIntervals ++ [r] } else st3

/-- One iteration of the outer loop `for _, cid := range chargers`. -/
def scanCharger (chargerReports : GoMap (List Report)) (st : ScanState) (cid : Nat) :
    ScanState :=
  (reportsOf chargerReports cid).foldl scanReport st

/-- Both scanning loops, from the initial variables. -/
def scanStation (chargers : List Nat) (chargerReports : GoMap (List Report)) : ScanState :=
  chargers.foldl (scanCharger chargerReports) scanInit

/-- The comparator handed to `sort.Slice`: by start, ties by end. -/
def reportLess (a b : Report) : Bool :=
  if a.start == b.start then decide (a.end_ < b.end_) else decide (a.start < b.start)

/-- The order `sort.Slice` establishes: no element is `reportLess` than an earlier one. -/
def ReportLE (a b : Report) : Prop := reportLess b a = false

instance : DecidableRel ReportLE := fun a b => by
  unfold ReportLE; exact inferInstance

instance : IsTotal Report ReportLE :=
  ⟨fun a b => by
    unfold ReportLE reportLess
    simp only [beq_iff_eq]
    split_ifs with h1 h2 h3 <;> simp only [decide_eq_false_iff_not] <;> omega⟩

instance : IsTrans Report ReportLE :=
  ⟨fun a b c hab hbc => by
    unfold ReportLE reportLess at *
    simp only [beq_iff_eq] at *
    split_ifs at * with h1 h2 h3 h4 h5 <;> simp only [decide_eq_false_iff_not] at * <;> omega⟩

/-- The call `sort.Slice(upIntervals, less)`. -/
def sortUpIntervals (upIntervals : List Report) : List Report :=
  List.insertionSort ReportLE upIntervals

/-- The local variables of the merging loop. -/
structure SweepState where
  currentStart : Nat
  currentEnd : Nat
  totalUp : Nat
deriving DecidableEq, Repr

/-- One iteration of `for _, r := range upIntervals[1:]`. -/
def sweepStep (st : SweepState) (r : Report) : SweepState :=
  if r.start ≤ st.currentEnd then
    if r.end_ > st.currentEnd then { st with currentEnd := r.end_ } else st
  else
    { currentStart := r.start, currentEnd := r.end_,
      totalUp := addU64 st.totalUp (subU64 st.currentEnd st.currentStart) }

/-- The merging loop followed by `totalUp += currentEnd - currentStart`,
on a sorted slice with first element `r0`. -/
def sweepTotal (r0 : Report) (rest : List Report) : Nat :=
  let st := rest.foldl sweepStep
    { currentStart := r0.start, currentEnd := r0.end_, totalUp := 0 }
  addU64 st.totalUp (subU64 st.currentEnd st.currentStart)

/-- The function `computeStationUptime` of `uptime.go`; `none` is the call of `fail()`. -/
def computeStationUptime (_stationID : Nat) (chargers : List Nat)
    (chargerReports : GoMap (List Report)) : Option Nat :=
  let st := scanStation chargers chargerReports
  if !st.hasAnyReports then none
  else
    let totalWindow := subU64 st.maxEnd st.minStart
    if totalWindow = 0 then some 0
    else if st.upIntervals.length = 0 then some 0
    else
      match sortUpIntervals st.upIntervals with
      | [] => none
      | r0 :: rest =>
          let totalUp := sweepTotal r0 rest
          let uptimePct := computePercentage totalUp totalWindow
          some (if uptimePct > 100 then 100 else uptimePct)

/-- The result loop of `computeAllStationUptimes` over the sorted station ids. -/
def resultsLoop (stationToChargers : GoMap (List Nat))
    (chargerReports : GoMap (List Report)) :
    List Nat → List StationResult → Option (List StationResult)
  | [], results => some results
  | sid :: rest, results =>
      match computeStationUptime sid (chargersOf stationToChargers sid) chargerReports with
      | none => none
      | some uptime =>
          resultsLoop stationToChargers chargerReports rest
            (results ++ [{ StationID := sid, UptimePct := uptime }])

/-- The call `sort.Slice(stationIDs, <)`. -/
def sortStationIDs (stationIDs : List Nat) : List Nat :=
  List.insertionSort (fun a b : Nat => a ≤ b) stationIDs

/-- The function `computeAllStationUptimes` of `uptime.go`; the unused parameter
`chargerToStation` is kept. -/
def computeAllStationUptimes (stationToChargers : GoMap (List Nat))
    (_chargerToStation : GoMap Nat) (chargerReports : GoMap (List Report)) :
    Option (List StationResult) :=
  resultsLoop stationToChargers chargerReports
    (sortStationIDs (mapKeys stationToChargers)) []

/-- All reports of the station's chargers, in scanning order. -/
def pooledReports (chargers : List Nat) (chargerReports : GoMap (List Report)) :
    List Report :=
  chargers.flatMap (reportsOf chargerReports)

/-- The spec-side window: `lo` is the smallest start and `hi` the largest end of `rs`. -/
def IsWindow (rs : List Report) (lo hi : Nat) : Prop :=
  (∃ r ∈ rs, r.start = lo) ∧ (∀ r ∈ rs, lo ≤ r.start) ∧
  (∃ r ∈ rs, r.end_ = hi) ∧ (∀ r ∈ rs, r.end_ ≤ hi)

instance (rs : List Report) (lo hi : Nat) : Decidable (IsWindow rs lo hi) := by
  unfold IsWindow; exact inferInstance

/-- The instants covered by the intervals `[start, end)` of `rs`. -/
def covered (rs : List Report) : Finset Nat :=
  rs.foldr (fun r acc => Finset.Ico r.start r.end_ ∪ acc) ∅

/-! ## Ingestion (`parser.go`, `types.go`) -/

/-- Go `unicode.IsSpace`: the code points with the Unicode White_Space property. -/
def isSpace (c : Char) : Bool :=
  let n := c.toNat
  (9 ≤ n && n ≤ 13) || n == 32 || n == 133 || n == 160 || n == 5760 ||
  (8192 ≤ n && n ≤ 8202) || n == 8232 || n == 8233 || n == 8239 || n == 8287 || n == 12288

/-- The scanning loop of Go `strings.Fields`; `cur` is the field being read, reversed. -/
def fieldsGo : List Char → List Char → List (List Char)
  | [], cur => if cur.isEmpty then [] else [cur.reverse]
  | c :: cs, cur =>
      if isSpace c then
        if cur.isEmpty then fieldsGo cs [] else cur.reverse :: fieldsGo cs []
      else fieldsGo cs (c :: cur)

/-- Go `strings.Fields`: the maximal runs of non-space characters, in order. -/
def fields (s : List Char) : List (List Char) := fieldsGo s []

/-- The digit loop of Go `strconv.ParseUint` for base 10: `n` is the value read so far,
`maxVal` the largest value of the requested bit size. -/
def parseUintGo (maxVal : Nat) : List Char → Nat → Option Nat
  | [], n => some n
  | c :: cs, n =>
      if 48 ≤ c.toNat ∧ c.toNat ≤ 57 then
        if n ≥ (u64Size - 1) / 10 + 1 then none
        else
          let n10 := (n * 10) % u64Size
          let n1 := (n10 + (c.toNat - 48)) % u64Size
          if n1 < n10 ∨ n1 > maxVal then none
          else parseUintGo maxVal cs n1
      else none

/-- Go `strconv.ParseUint(s, 10, bitSize)`; `none` is a non-nil error. -/
def ParseUint (s : List Char) (bitSize : Nat) : Option Nat :=
  if s.isEmpty then none else parseUintGo (2 ^ bitSize - 1) s 0

/-- The function `parseUint32` of `types.go`. -/
def parseUint32 (s : List Char) : Option Nat := ParseUint s 32

/-- The function `parseUint64` of `types.go`. -/
def parseUint64 (s : List Char) : Option Nat := ParseUint s 64

/-- Go `unicode.ToLower` on the code points it sends to ASCII: the letters `A` to `Z`,
U+0130 (to `i`) and U+212A (to `k`). Every other code point outside ASCII is sent by Go
to a code point outside ASCII and is left in place here. -/
def toLowerRune (c : Char) : Char :=
  if 65 ≤ c.toNat ∧ c.toNat ≤ 90 then Char.ofNat (c.toNat + 32)
  else if c.toNat = 304 then Char.ofNat 105
  else if c.toNat = 8490 then Char.ofNat 107
  else c

/-- Go `strings.ToLower`. -/
def ToLower (s : List Char) : List Char := s.map toLowerRune

/-- The function `parseBoolTF` of `types.go`. -/
def parseBoolTF (s : List Char) : Option Bool :=
  let l := ToLower s
  if l = "true".toList then some true
  else if l = "false".toList then some false
  else none

/-- The function `parseReportLine` of `parser.go`; the result is the updated
`chargerReports`. -/
def parseReportLine (line : List Char) (chargerToStation : GoMap Nat)
    (chargerReports : GoMap (List Report)) : Option (GoMap (List Report)) :=
  if (fields line).length ≠ 4 then none
  else
  match fields line with
  | [p0, p1, p2, p3] =>
      match parseUint32 p0 with
      | none => none
      | some cid =>
          match parseUint64 p1 with
          | none => none
          | some start =>
              match parseUint64 p2 with
              | none => none
              | some end_ =>
                  if end_ < start then none
                  else
                    match parseBoolTF p3 with
                    | none => none
                    | some up =>
                        if !mapHas chargerToStation cid then none
                        else
                          some (mapSet chargerReports cid
                            (reportsOf chargerReports cid ++ [⟨start, end_, up⟩]))
  | _ => none

/-- The loop `for _, p := range parts[1:]` of `parseStationsLine`. -/
def chargerLoop (sid : Nat) :
    List (List Char) → List Nat → GoMap Nat → Option (List Nat × GoMap Nat)
  | [], chargers, chargerToStation => some (chargers, chargerToStation)
  | p :: ps, chargers, chargerToStation =>
      match parseUint32 p with
      | none => none
      | some cid =>
          if mapHas chargerToStation cid then none
          else chargerLoop sid ps (chargers ++ [cid]) (mapSet chargerToStation cid sid)

/-- The function `parseStationsLine` of `parser.go`; the result is the two updated
maps. -/
def parseStationsLine (line : List Char) (stationToChargers : GoMap (List Nat))
    (chargerToStation : GoMap Nat) : Option (GoMap (List Nat) × GoMap Nat) :=
  if (fields line).length < 2 then none
  else
  match fields line with
  | [] => none
  | p0 :: ps =>
      match parseUint32 p0 with
      | none => none
      | some sid =>
          if mapHas stationToChargers sid then none
          else
            match chargerLoop sid ps [] chargerToStation with
            | none => none
            | some (chargers, c2s) => some (mapSet stationToChargers sid chargers, c2s)

/-- The value of a string of decimal digits, read after the value `n`. -/
def decimalValue (s : List Char) (n : Nat) : Nat :=
  s.foldl (fun acc c => acc * 10 + (c.toNat - 48)) n

/-- The updates `chargerToStation[cid] = sid` for the chargers of one station line. -/
def assignChargers (sid : Nat) (cids : List Nat) (c2s : GoMap Nat) : GoMap Nat :=
  cids.foldl (fun acc c => mapSet acc c sid) c2s

/-! ## Ingestion of a whole input (`parser.go`, `main.go`) -/

/-- Go `strings.TrimSpace`: the string without its leading and trailing white space. -/
def TrimSpace (s : List Char) : List Char :=
  ((s.dropWhile isSpace).reverse.dropWhile isSpace).reverse

/-- The literal header of the stations section. -/
def stationsHeader : List Char := "[Stations]".toList

/-- The literal header of the reports section. -/
def reportsHeader : List Char := "[Charger Availability Reports]".toList

/-- The type `parseState` of `parser.go`. -/
inductive parseState where
  | stateInit
  | stateStations
  | stateReports
deriving DecidableEq, Repr

/-- The local variables of `parseInput`: the section state and the three maps. -/
structure ParseVars where
  state : parseState
  stationToChargers : GoMap (List Nat)
  chargerToStation : GoMap Nat
  chargerReports : GoMap (List Report)
deriving DecidableEq, Repr

/-- The variables of `parseInput` before the scanning loop. -/
def parseInit : ParseVars :=
  { state := parseState.stateInit, stationToChargers := [], chargerToStation := [],
    chargerReports := [] }

/-- The body of the scanning loop of `parseInput` after the blank-line test, on the
trimmed line: the two `switch` statements. -/
def processLine (v : ParseVars) (line : List Char) : Option ParseVars :=
  if line = stationsHeader then
    if v.state ≠ parseState.stateInit then none
    else some { v with state := parseState.stateStations }
  else if line = reportsHeader then
    if v.state ≠ parseState.stateStations then none
    else some { v with state := parseState.stateReports }
  else
    match v.state with
    | parseState.stateStations =>
        match parseStationsLine line v.stationToChargers v.chargerToStation with
        | none => none
        | some (s2c, c2s) => some { v with stationToChargers := s2c, chargerToStation := c2s }
    | parseState.stateReports =>
        match parseReportLine line v.chargerToStation v.chargerReports with
        | none => none
        | some reps => some { v with chargerReports := reps }
    | parseState.stateInit => none

/-- One iteration of `for scanner.Scan()`: trim, skip a blank line, else process. -/
def scanLine (v : ParseVars) (text : List Char) : Option ParseVars :=
  let line := TrimSpace text
  if line = [] then some v else processLine v line

/-- The scanning loop of `parseInput` over the lines the scanner yields. -/
def scanLoop : List (List Char) → ParseVars → Option ParseVars
  | [], v => some v
  | text :: rest, v =>
      match scanLine v text with
      | none => none
      | some v2 => scanLoop rest v2

/-- The three maps `parseInput` returns. -/
structure ParsedInput where
  stationToChargers : GoMap (List Nat)
  chargerToStation : GoMap Nat
  chargerReports : GoMap (List Report)
deriving DecidableEq, Repr

/-- The function `parseInput` of `parser.go` on an opened file: `lines` are the lines the
`bufio.Scanner` yields and `scanErr` tells whether `scanner.Err()` is non-nil after the
loop (a read error or a line over the scanner's token limit). -/
def parseInput (lines : List (List Char)) (scanErr : Bool) : Option ParsedInput :=
  match scanLoop lines parseInit with
  | none => none
  | some v =>
      if scanErr then none
      else if v.stationToChargers.length = 0 then none
      else some ⟨v.stationToChargers, v.chargerToStation, v.chargerReports⟩

/-- The function `main` of `main.go` once the single argument names a readable file: the
result is the list of station results it prints, one per line. -/
def main (lines : List (List Char)) (scanErr : Bool) : Option (List StationResult) :=
  match parseInput lines scanErr with
  | none => none
  | some p =>
      computeAllStationUptimes p.stationToChargers p.chargerToStation p.chargerReports

/-! ## The scanner in front of `parseInput` (`bufio`) -/

/-- Go `bufio.MaxScanTokenSize`, the buffer limit of a scanner made by `bufio.NewScanner`. -/
def maxScanTokenSize : Nat := 64 * 1024

/-- The length of a string in bytes (UTF-8), Go `len(s)`. -/
def byteLength (s : List Char) : Nat := (s.map Char.utf8Size).sum

/-- Go `dropCR` of `bufio`: the line without one trailing carriage return. -/
def dropCR (s : List Char) : List Char :=
  if s.getLast? = some (Char.ofNat 13) then s.dropLast else s

/-- The calls of `scanner.Scan()` of a `bufio.NewScanner` (split function `ScanLines`) on a
readable file whose text between newline characters is `raw`: the lines it yields, and
whether it stops with `ErrTooLong`. A line is yielded when it fits the buffer together
with its newline, that is when it has fewer than `maxScanTokenSize` bytes; at the first
longer line the scanner stops and `scanner.Err()` is non-nil. -/
def scanFile : List (List Char) → List (List Char) × Bool
  | [] => ([], false)
  | raw :: rest =>
      if maxScanTokenSize ≤ byteLength raw then ([], true)
      else (dropCR raw :: (scanFile rest).1, (scanFile rest).2)

/-- The function `parseInput` of `parser.go` on a readable file with the raw lines `raw`,
through the scanner. -/
def parseInputFile (raw : List (List Char)) : Option ParsedInput :=
  parseInput (scanFile raw).1 (scanFile raw).2

/-! ## Notions used to state the properties of ingestion -/

/-- The lines the loop of `parseInput` acts on: trimmed, blank lines dropped. -/
def trimmedLines (lines : List (List Char)) : List (List Char) :=
  (lines.map TrimSpace).filter (fun l => l ≠ [])

/-- The loop of `parseInput` on lines that are already trimmed and non-blank. -/
def processLines : List (List Char) → ParseVars → Option ParseVars
  | [], v => some v
  | line :: rest, v =>
      match processLine v line with
      | none => none
      | some v2 => processLines rest v2

/-- No line of `l` is one of the two section headers. -/
def HeaderFree (l : List (List Char)) : Prop :=
  ∀ x ∈ l, x ≠ stationsHeader ∧ x ≠ reportsHeader

instance (l : List (List Char)) : Decidable (HeaderFree l) := by
  unfold HeaderFree; exact inferInstance

/-- The calls of `parseStationsLine` on the lines of a stations section, in order. -/
def stationsFold : List (List Char) → GoMap (List Nat) → GoMap Nat →
    Option (GoMap (List Nat) × GoMap Nat)
  | [], s2c, c2s => some (s2c, c2s)
  | line :: rest, s2c, c2s =>
      match parseStationsLine line s2c c2s with
      | none => none
      | some (a, b) => stationsFold rest a b

/-- The calls of `parseReportLine` on the lines of a reports section, in order. -/
def reportsFold : List (List Char) → GoMap Nat → GoMap (List Report) →
    Option (GoMap (List Report))
  | [], _, reps => some reps
  | line :: rest, c2s, reps =>
      match parseReportLine line c2s reps with
      | none => none
      | some reps2 => reportsFold rest c2s reps2

/-- The lines between the stations header and the reports header (or the end). -/
def stationSection (lines : List (List Char)) : List (List Char) :=
  ((trimmedLines lines).drop 1).takeWhile (fun l => l ≠ reportsHeader)

/-- The lines after the first reports header. -/
def reportSection (lines : List (List Char)) : List (List Char) :=
  ((trimmedLines lines).dropWhile (fun l => l ≠ reportsHeader)).drop 1

/-- The charger id and the report a report line denotes. -/
def lineReport (line : List Char) : Option (Nat × Report) :=
  match fields line with
  | [p0, p1, p2, p3] =>
      match parseUint32 p0, parseUint64 p1, parseUint64 p2, parseBoolTF p3 with
      | some cid, some start, some end_, some up => some (cid, ⟨start, end_, up⟩)
      | _, _, _, _ => none
  | _ => none

/-- The reports of the lines of `R` whose charger field is `c`, in the order of `R`. -/
def reportsFor (c : Nat) (R : List (List Char)) : List Report :=
  ((R.filterMap lineReport).filter (fun x => x.1 == c)).map Prod.snd

/-- The ownership invariant of the two station maps. -/
def StationsInv (s2c : GoMap (List Nat)) (c2s : GoMap Nat) : Prop :=
  (mapKeys s2c).Nodup ∧
  (∀ sid cids, mapGet s2c sid = some cids → cids ≠ [] ∧ cids.Nodup) ∧
  (∀ c s, mapGet c2s c = some s ↔ ∃ cids, mapGet s2c s = some cids ∧ c ∈ cids)

/-- A line is blank when it is empty or consists of white space only. -/
def isBlank (l : List Char) : Bool := l.all isSpace

/-- The relation between a report of table `T` and the report at the same place of `T2`:
the same interval, and marked up in `T2` if it is marked up in `T`. -/
def UpFlagRaised (r r2 : Report) : Prop :=
  r.start = r2.start ∧ r.end_ = r2.end_ ∧ (r.up = true → r2.up = true)

instance (r r2 : Report) : Decidable (UpFlagRaised r r2) := by
  unfold UpFlagRaised; exact inferInstance

/-! ## Machine arithmetic without wrap-around -/

theorem subU64_of_le {a b : Nat} (hba : b ≤ a) (ha : a < u64Size) : subU64 a b = a - b := by
  unfold subU64
  have h : a + u64Size - b = (a - b) + u64Size := by omega
  rw [h, Nat.add_mod_right, Nat.mod_eq_of_lt (by omega)]

theorem subU64_self (a : Nat) : subU64 a a = 0 := by
  unfold subU64
  simp

theorem addU64_of_lt {a b : Nat} (h : a + b < u64Size) : addU64 a b = a + b := by
  unfold addU64
  exact Nat.mod_eq_of_lt h

/-! ## The scanning loops -/

theorem foldl_scanReport_flatMap (m : GoMap (List Report)) (chargers : List Nat)
    (st : ScanState) :
    chargers.foldl (scanCharger m) st
      = (chargers.flatMap (reportsOf m)).foldl scanReport st := by
  induction chargers generalizing st with
  | nil => rfl
  | cons c cs ih =>
      simp only [List.foldl_cons, List.flatMap_cons, List.foldl_append]
      rw [ih]
      rfl

theorem scanStation_eq_pooled (chargers : List Nat) (m : GoMap (List Report)) :
    scanStation chargers m = (pooledReports chargers m).foldl scanReport scanInit :=
  foldl_scanReport_flatMap m chargers scanInit

theorem scan_upIntervals (rs : List Report) (st : ScanState) :
    (rs.foldl scanReport st).upIntervals = st.upIntervals ++ rs.filter (fun r => r.up) := by
  induction rs generalizing st with
  | nil => simp
  | cons r rs ih =>
      rw [List.foldl_cons, ih]
      cases hu : r.up <;> simp [scanReport, hu, List.filter_cons] <;> split <;> split <;> rfl

theorem scan_hasAnyReports (rs : List Report) (st : ScanState) :
    (rs.foldl scanReport st).hasAnyReports = (st.hasAnyReports || !rs.isEmpty) := by
  induction rs generalizing st with
  | nil => simp
  | cons r rs ih =>
      rw [List.foldl_cons, ih]
      have : (scanReport st r).hasAnyReports = true := by
        unfold scanReport
        simp only
        split <;> split <;> split <;> rfl
      simp [this]

theorem scanReport_minStart (st : ScanState) (r : Report) :
    (scanReport st r).minStart
      = if st.minStartSet = false ∨ r.start < st.minStart then r.start else st.minStart := by
  unfold scanReport
  dsimp only
  split_ifs <;> simp_all

theorem scanReport_maxEnd (st : ScanState) (r : Report) :
    (scanReport st r).maxEnd
      = if st.maxEndSet = false ∨ st.maxEnd < r.end_ then r.end_ else st.maxEnd := by
  unfold scanReport
  dsimp only
  split_ifs <;> simp_all

theorem scanReport_minStartSet (st : ScanState) (r : Report) :
    (scanReport st r).minStartSet = true := by
  unfold scanReport
  dsimp only
  split_ifs <;> simp_all

theorem scanReport_maxEndSet (st : ScanState) (r : Report) :
    (scanReport st r).maxEndSet = true := by
  unfold scanReport
  dsimp only
  split_ifs <;> simp_all

theorem scan_window (rs : List Report) (hne : rs ≠ []) :
    (rs.foldl scanReport scanInit).minStartSet = true ∧
    (rs.foldl scanReport scanInit).maxEndSet = true ∧
    IsWindow rs (rs.foldl scanReport scanInit).minStart
      (rs.foldl scanReport scanInit).maxEnd := by
  induction rs using List.reverseRecOn with
  | nil => exact absurd rfl hne
  | append_singleton rs r ih =>
      rw [List.foldl_append, List.foldl_cons, List.foldl_nil]
      by_cases hrs : rs = []
      · subst hrs
        simp [scanReport, scanInit, IsWindow]
        cases r.up <;> simp
      · obtain ⟨h1, h2, ⟨a, ha, hamin⟩, hlo, ⟨b, hb, hbmax⟩, hhi⟩ := ih hrs
        generalize rs.foldl scanReport scanInit = st at *
        refine ⟨scanReport_minStartSet st r, scanReport_maxEndSet st r, ?_⟩
        rw [scanReport_minStart, scanReport_maxEnd, h1, h2]
        simp only [Bool.true_eq_false, false_or]
        refine ⟨?_, ?_, ?_, ?_⟩
        · split
          · exact ⟨r, by simp, rfl⟩
          · exact ⟨a, by simp [ha], hamin⟩
        · intro x hx
          rcases List.mem_append.1 hx with hx | hx
          · have := hlo x hx
            split <;> omega
          · simp at hx
            subst hx
            split <;> omega
        · split
          · exact ⟨r, by simp, rfl⟩
          · exact ⟨b, by simp [hb], hbmax⟩
        · intro x hx
          rcases List.mem_append.1 hx with hx | hx
          · have := hhi x hx
            split <;> omega
          · simp at hx
            subst hx
            split <;> omega

/-! ## The merging sweep -/

theorem covered_cons (r : Report) (rs : List Report) :
    covered (r :: rs) = Finset.Ico r.start r.end_ ∪ covered rs := rfl

theorem mem_covered {rs : List Report} {t : Nat} :
    t ∈ covered rs ↔ ∃ r ∈ rs, r.start ≤ t ∧ t < r.end_ := by
  induction rs with
  | nil => simp [covered]
  | cons r rs ih =>
      rw [covered_cons, Finset.mem_union, ih, Finset.mem_Ico]
      simp

theorem sweep_fold (B : Nat) (hB : B < u64Size) :
    ∀ (rest : List Report) (st : SweepState),
      st.currentStart ≤ st.currentEnd → st.currentEnd ≤ B →
      (∀ r ∈ rest, st.currentStart ≤ r.start ∧ r.start ≤ r.end_ ∧ r.end_ ≤ B) →
      rest.Pairwise (fun a b => a.start ≤ b.start) →
      st.totalUp + (B - st.currentStart) < u64Size →
      addU64 (rest.foldl sweepStep st).totalUp
          (subU64 (rest.foldl sweepStep st).currentEnd (rest.foldl sweepStep st).currentStart)
        = st.totalUp + (Finset.Ico st.currentStart st.currentEnd ∪ covered rest).card := by
  intro rest
  induction rest with
  | nil =>
      intro st h1 h2 _ _ h5
      simp only [List.foldl_nil, covered, List.foldr_nil, Finset.union_empty, Nat.card_Ico]
      rw [subU64_of_le h1 (by omega), addU64_of_lt (by omega)]
  | cons r rest ih =>
      intro st h1 h2 h3 h4 h5
      obtain ⟨hr1, hr2, hr3⟩ := h3 r (by simp)
      have h3rest : ∀ x ∈ rest, r.start ≤ x.start ∧ x.start ≤ x.end_ ∧ x.end_ ≤ B := by
        intro x hx
        have := h3 x (by simp [hx])
        exact ⟨(List.pairwise_cons.1 h4).1 x hx, this.2⟩
      have h4rest := (List.pairwise_cons.1 h4).2
      rw [List.foldl_cons, covered_cons]
      by_cases hov : r.start ≤ st.currentEnd
      · by_cases hext : r.end_ > st.currentEnd
        · have hs : sweepStep st r = { st with currentEnd := r.end_ } := by
            simp [sweepStep, hov, hext]
          rw [hs]
          rw [ih _ (by simp; omega) (by simpa using hr3)
            (fun x hx => ⟨by simpa using le_trans hr1 (h3rest x hx).1, (h3rest x hx).2⟩)
            h4rest (by simpa using h5)]
          have : Finset.Ico st.currentStart st.currentEnd ∪ Finset.Ico r.start r.end_
              = Finset.Ico st.currentStart r.end_ := by
            ext t; simp only [Finset.mem_union, Finset.mem_Ico]; omega
          rw [← Finset.union_assoc, this]
        · have hs : sweepStep st r = st := by
            simp [sweepStep, hov, hext]
          rw [hs]
          rw [ih _ h1 h2
            (fun x hx => ⟨le_trans hr1 (h3rest x hx).1, (h3rest x hx).2⟩)
            h4rest h5]
          have : Finset.Ico st.currentStart st.currentEnd ∪ Finset.Ico r.start r.end_
              = Finset.Ico st.currentStart st.currentEnd := by
            ext t; simp only [Finset.mem_union, Finset.mem_Ico]; omega
          rw [← Finset.union_assoc, this]
      · have hs : sweepStep st r = SweepState.mk r.start r.end_
            (addU64 st.totalUp (subU64 st.currentEnd st.currentStart)) := by
          simp [sweepStep, hov]
        rw [hs]
        have hsub : subU64 st.currentEnd st.currentStart = st.currentEnd - st.currentStart :=
          subU64_of_le h1 (by omega)
        have hadd : addU64 st.totalUp (st.currentEnd - st.currentStart)
            = st.totalUp + (st.currentEnd - st.currentStart) := addU64_of_lt (by omega)
        rw [ih _ (by simpa using hr2) (by simpa using hr3)
            (fun x hx => by simpa using h3rest x hx) h4rest
            (by simp only [hsub, hadd]; omega)]
        simp only [hsub, hadd]
        have hdisj : Disjoint (Finset.Ico st.currentStart st.currentEnd)
            (Finset.Ico r.start r.end_ ∪ covered rest) := by
          rw [Finset.disjoint_left]
          intro t ht hmem
          rw [Finset.mem_Ico] at ht
          rcases Finset.mem_union.1 hmem with hm | hm
          · rw [Finset.mem_Ico] at hm; omega
          · obtain ⟨x, hx, hx1, _⟩ := mem_covered.1 hm
            have := (h3rest x hx).1
            omega
        rw [Finset.card_union_of_disjoint hdisj, Nat.card_Ico]
        omega


theorem reportLE_iff (a b : Report) :
    ReportLE a b ↔ a.start < b.start ∨ (a.start = b.start ∧ a.end_ ≤ b.end_) := by
  unfold ReportLE reportLess
  by_cases h : b.start = a.start
  · simp [h]
  · simp [h]; omega

theorem sortUpIntervals_perm (l : List Report) : (sortUpIntervals l).Perm l :=
  List.perm_insertionSort ReportLE l

theorem sortUpIntervals_sorted (l : List Report) : (sortUpIntervals l).Sorted ReportLE :=
  List.sorted_insertionSort ReportLE l

theorem sortUpIntervals_pairwise_start (l : List Report) :
    (sortUpIntervals l).Pairwise (fun a b => a.start ≤ b.start) := by
  have h := sortUpIntervals_sorted l
  unfold List.Sorted at h
  refine h.imp ?_
  intro a b hab
  rw [reportLE_iff] at hab
  omega

theorem isWindow_unique {rs : List Report} {lo hi lo2 hi2 : Nat}
    (h : IsWindow rs lo hi) (h2 : IsWindow rs lo2 hi2) : lo = lo2 ∧ hi = hi2 := by
  obtain ⟨⟨a, ha, ha1⟩, hlo, ⟨b, hb, hb1⟩, hhi⟩ := h
  obtain ⟨⟨c, hc, hc1⟩, hlo2, ⟨d, hd, hd1⟩, hhi2⟩ := h2
  have e1 := hlo c hc
  have e2 := hlo2 a ha
  have e3 := hhi d hd
  have e4 := hhi2 b hb
  omega

theorem isWindow_ne_nil {rs : List Report} {lo hi : Nat} (h : IsWindow rs lo hi) : rs ≠ [] := by
  obtain ⟨⟨a, ha, _⟩, _⟩ := h
  intro hnil
  rw [hnil] at ha
  simp at ha

/-- With no pooled report the station fails. -/
theorem computeStationUptime_nil (sid : Nat) (chargers : List Nat)
    (m : GoMap (List Report)) (h : pooledReports chargers m = []) :
    computeStationUptime sid chargers m = none := by
  unfold computeStationUptime
  simp only [scanStation_eq_pooled, h, List.foldl_nil]
  rfl

/-- The value of `computeStationUptime` in terms of the pooled reports and their window. -/
theorem computeStationUptime_window (sid : Nat) (chargers : List Nat)
    (m : GoMap (List Report)) (lo hi : Nat)
    (hw : IsWindow (pooledReports chargers m) lo hi) :
    computeStationUptime sid chargers m =
      if subU64 hi lo = 0 then some 0
      else if (pooledReports chargers m).filter (fun r => r.up) = [] then some 0
      else
        match sortUpIntervals ((pooledReports chargers m).filter (fun r => r.up)) with
        | [] => none
        | r0 :: rest =>
            some (if computePercentage (sweepTotal r0 rest) (subU64 hi lo) > 100 then 100
              else computePercentage (sweepTotal r0 rest) (subU64 hi lo)) := by
  have hne := isWindow_ne_nil hw
  obtain ⟨h1, h2, h3⟩ := scan_window _ hne
  obtain ⟨e1, e2⟩ := isWindow_unique h3 hw
  have hup := scan_upIntervals (pooledReports chargers m) scanInit
  have hany := scan_hasAnyReports (pooledReports chargers m) scanInit
  unfold computeStationUptime
  simp only [scanStation_eq_pooled]
  rw [hany, hup, e1, e2]
  have : (pooledReports chargers m).isEmpty = false := by
    cases hp : pooledReports chargers m with
    | nil => exact absurd hp hne
    | cons _ _ => rfl
  simp only [this, scanInit, Bool.not_false, Bool.or_true, Bool.not_true, Bool.false_eq_true,
    if_false, List.nil_append, List.length_eq_zero, gt_iff_lt]


theorem covered_perm {l1 l2 : List Report} (h : l1.Perm l2) : covered l1 = covered l2 := by
  ext t
  simp only [mem_covered, h.mem_iff]

theorem covered_subset_Ico {rs : List Report} {lo hi : Nat}
    (h : ∀ r ∈ rs, lo ≤ r.start ∧ r.end_ ≤ hi) : covered rs ⊆ Finset.Ico lo hi := by
  intro t ht
  obtain ⟨r, hr, h1, h2⟩ := mem_covered.1 ht
  have := h r hr
  rw [Finset.mem_Ico]
  omega

theorem covered_card_le {rs : List Report} {lo hi : Nat}
    (h : ∀ r ∈ rs, lo ≤ r.start ∧ r.end_ ≤ hi) : (covered rs).card ≤ hi - lo := by
  have := Finset.card_le_card (covered_subset_Ico h)
  rwa [Nat.card_Ico] at this

/-- On a slice sorted by start whose intervals are well-formed `uint64` intervals the
sweep returns the number of covered instants: no addition or subtraction wraps. -/
theorem sweepTotal_eq_card (r0 : Report) (rest : List Report) (B : Nat) (hB : B < u64Size)
    (hsorted : (r0 :: rest).Pairwise (fun a b => a.start ≤ b.start))
    (hvalid : ∀ r ∈ r0 :: rest, r.start ≤ r.end_ ∧ r.end_ ≤ B) :
    sweepTotal r0 rest = (covered (r0 :: rest)).card := by
  unfold sweepTotal
  have h0 := hvalid r0 (by simp)
  have := sweep_fold B hB rest (SweepState.mk r0.start r0.end_ 0) h0.1 h0.2
    (fun r hr => ⟨(List.pairwise_cons.1 hsorted).1 r hr, hvalid r (by simp [hr])⟩)
    (List.pairwise_cons.1 hsorted).2 (by simp only; omega)
  simp only [Nat.zero_add] at this
  rw [covered_cons]
  exact this

theorem computePercentage_of_le {totalUp totalWindow : Nat} (hle : totalUp ≤ totalWindow)
    (hpos : 0 < totalWindow) :
    computePercentage totalUp totalWindow = 100 * totalUp / totalWindow := by
  unfold computePercentage
  rw [if_neg (by omega), Nat.mul_comm]
  apply Nat.mod_eq_of_lt
  have : 100 * totalUp / totalWindow ≤ 100 := by
    apply Nat.div_le_of_le_mul
    calc 100 * totalUp ≤ 100 * totalWindow := Nat.mul_le_mul_left _ hle
      _ = totalWindow * 100 := Nat.mul_comm _ _
  have : (100 : Nat) < u64Size := by unfold u64Size; norm_num
  omega

theorem percentage_le_hundred {totalUp totalWindow : Nat} (hle : totalUp ≤ totalWindow) :
    100 * totalUp / totalWindow ≤ 100 := by
  rcases Nat.eq_zero_or_pos totalWindow with h | h
  · simp [h]
  · apply Nat.div_le_of_le_mul
    calc 100 * totalUp ≤ 100 * totalWindow := Nat.mul_le_mul_left _ hle
      _ = totalWindow * 100 := Nat.mul_comm _ _

/-- The exact value of `computeStationUptime` on valid reports with a window of positive
length, in terms of the finite set of covered instants. -/
theorem computeStationUptime_exact (sid : Nat) (chargers : List Nat)
    (m : GoMap (List Report)) (lo hi : Nat)
    (hvalid : ∀ r ∈ pooledReports chargers m, r.start ≤ r.end_)
    (hrange : ∀ r ∈ pooledReports chargers m, r.InRange)
    (hw : IsWindow (pooledReports chargers m) lo hi) (hpos : lo < hi) :
    computeStationUptime sid chargers m
      = some (100 * (covered ((pooledReports chargers m).filter (fun r => r.up))).card
          / (hi - lo)) := by
  rw [computeStationUptime_window sid chargers m lo hi hw]
  obtain ⟨_, hlo, ⟨b, hb, hb1⟩, hhi⟩ := hw
  have hhiR : hi < u64Size := by
    have := (hrange b hb).2
    omega
  have hsub : subU64 hi lo = hi - lo := subU64_of_le (by omega) hhiR
  rw [hsub, if_neg (by omega)]
  by_cases hup : (pooledReports chargers m).filter (fun r => r.up) = []
  · rw [if_pos hup, hup]
    simp [covered]
  · rw [if_neg hup]
    have hperm := sortUpIntervals_perm ((pooledReports chargers m).filter (fun r => r.up))
    have hpw := sortUpIntervals_pairwise_start ((pooledReports chargers m).filter (fun r => r.up))
    have hmem : ∀ r ∈ sortUpIntervals ((pooledReports chargers m).filter (fun r => r.up)),
        r ∈ pooledReports chargers m := fun r hr =>
      (List.mem_filter.1 (hperm.mem_iff.1 hr)).1
    rw [← covered_perm hperm]
    revert hperm hpw hmem
    cases sortUpIntervals ((pooledReports chargers m).filter (fun r => r.up)) with
    | nil =>
        intro hperm _ _
        exact absurd hperm.symm.eq_nil hup
    | cons r0 rest =>
        intro _ hpw hmem
        simp only
        have hcard := sweepTotal_eq_card r0 rest hi hhiR hpw
          (fun r hr => ⟨hvalid r (hmem r hr), hhi r (hmem r hr)⟩)
        have hle : (covered (r0 :: rest)).card ≤ hi - lo :=
          covered_card_le (fun r hr => ⟨hlo r (hmem r hr), hhi r (hmem r hr)⟩)
        rw [hcard, computePercentage_of_le hle (by omega)]
        rw [if_neg (by have := percentage_le_hundred hle; omega)]

/-! ## Outcomes of the station and fleet computations -/

theorem computeStationUptime_le_hundred (sid : Nat) (chargers : List Nat)
    (m : GoMap (List Report)) (u : Nat) (h : computeStationUptime sid chargers m = some u) :
    u ≤ 100 := by
  unfold computeStationUptime at h
  simp only at h
  split_ifs at h with h1 h2 h3
  · simp at h; omega
  · simp at h; omega
  · split at h
    · simp at h
    · simp only [Option.some.injEq] at h
      split_ifs at h <;> omega

theorem resultsLoop_some (s2c : GoMap (List Nat)) (m : GoMap (List Report)) :
    ∀ (ids : List Nat) (acc res : List StationResult),
      resultsLoop s2c m ids acc = some res →
      ∃ tl : List StationResult, res = acc ++ tl ∧
        tl.map StationResult.StationID = ids ∧
        ∀ e ∈ tl, computeStationUptime e.StationID (chargersOf s2c e.StationID) m
          = some e.UptimePct := by
  intro ids
  induction ids with
  | nil =>
      intro acc res h
      simp only [resultsLoop, Option.some.injEq] at h
      exact ⟨[], by simp [h], rfl, by simp⟩
  | cons sid rest ih =>
      intro acc res h
      unfold resultsLoop at h
      split at h
      · simp at h
      · rename_i u hu
        obtain ⟨tl, h1, h2, h3⟩ := ih _ _ h
        refine ⟨⟨sid, u⟩ :: tl, by simp [h1], by simp [h2], ?_⟩
        intro e he
        rcases List.mem_cons.1 he with he | he
        · subst he; exact hu
        · exact h3 e he

theorem resultsLoop_eq_none (s2c : GoMap (List Nat)) (m : GoMap (List Report)) :
    ∀ (ids : List Nat) (acc : List StationResult),
      resultsLoop s2c m ids acc = none ↔
        ∃ sid ∈ ids, computeStationUptime sid (chargersOf s2c sid) m = none := by
  intro ids
  induction ids with
  | nil => intro acc; simp [resultsLoop]
  | cons sid rest ih =>
      intro acc
      unfold resultsLoop
      split
      · rename_i hu
        simp [hu]
      · rename_i u hu
        rw [ih]
        simp [hu]


theorem sortUpIntervals_ne_nil {l : List Report} (h : l ≠ []) : sortUpIntervals l ≠ [] := by
  intro hs
  have hp := sortUpIntervals_perm l
  rw [hs] at hp
  exact h hp.symm.eq_nil

theorem exists_isWindow {rs : List Report} (hne : rs ≠ []) : ∃ lo hi, IsWindow rs lo hi :=
  ⟨_, _, (scan_window rs hne).2.2⟩

theorem computeStationUptime_eq_none_iff (sid : Nat) (chargers : List Nat)
    (m : GoMap (List Report)) :
    computeStationUptime sid chargers m = none ↔ pooledReports chargers m = [] := by
  constructor
  · intro h
    by_contra hne
    obtain ⟨lo, hi, hw⟩ := exists_isWindow hne
    rw [computeStationUptime_window sid chargers m lo hi hw] at h
    split_ifs at h with h1 h2
    have := sortUpIntervals_ne_nil h2
    split at h
    · rename_i hs; exact this hs
    · simp at h
  · exact computeStationUptime_nil sid chargers m

theorem sorted_perm_eq_of_antisymm_on {α : Type} {r : α → α → Prop} :
    ∀ {l1 l2 : List α}, l1.Perm l2 → l1.Sorted r → l2.Sorted r →
      (∀ a ∈ l1, ∀ b ∈ l1, r a b → r b a → a = b) → l1 = l2 := by
  intro l1
  induction l1 with
  | nil =>
      intro l2 hp _ _ _
      exact hp.nil_eq
  | cons a t1 ih =>
      intro l2 hp h1 h2 hanti
      cases l2 with
      | nil => exact absurd hp.eq_nil (by simp)
      | cons b t2 =>
          have ha : a ∈ b :: t2 := hp.subset (List.mem_cons_self _ _)
          have hb : b ∈ a :: t1 := hp.symm.subset (List.mem_cons_self _ _)
          have hab : a = b := by
            rcases List.mem_cons.1 ha with h | h
            · exact h
            · rcases List.mem_cons.1 hb with h2b | h2b
              · exact h2b.symm
              · exact hanti a (List.mem_cons_self _ _) b hb
                  (List.rel_of_sorted_cons h1 b h2b) (List.rel_of_sorted_cons h2 a h)
          subst hab
          have ht : t1 = t2 := ih (List.Perm.cons_inv hp) h1.tail h2.tail
            (fun x hx y hy => hanti x (List.mem_cons_of_mem _ hx) y (List.mem_cons_of_mem _ hy))
          rw [ht]

theorem reportLE_antisymm_of_up {a b : Report} (ha : a.up = true) (hb : b.up = true)
    (hab : ReportLE a b) (hba : ReportLE b a) : a = b := by
  rw [reportLE_iff] at hab hba
  obtain ⟨s1, e1, u1⟩ := a
  obtain ⟨s2, e2, u2⟩ := b
  simp only at ha hb hab hba
  subst ha hb
  have h1 : s1 = s2 := by omega
  have h2 : e1 = e2 := by omega
  rw [h1, h2]

/-- Every sorted arrangement of a slice of up reports is the one `sortUpIntervals` returns:
the outcome of `sort.Slice` does not depend on the sorting algorithm. -/
theorem sorted_arrangement_unique {l s : List Report} (hup : ∀ r ∈ l, r.up = true)
    (hp : s.Perm l) (hs : s.Sorted ReportLE) : s = sortUpIntervals l := by
  apply sorted_perm_eq_of_antisymm_on (hp.trans (sortUpIntervals_perm l).symm) hs
    (sortUpIntervals_sorted l)
  intro a ha b hb
  exact reportLE_antisymm_of_up (hup a (hp.mem_iff.1 ha)) (hup b (hp.mem_iff.1 hb))

theorem sortUpIntervals_congr {l1 l2 : List Report} (hp : l1.Perm l2)
    (hup : ∀ r ∈ l2, r.up = true) : sortUpIntervals l1 = sortUpIntervals l2 :=
  sorted_arrangement_unique hup ((sortUpIntervals_perm l1).trans hp) (sortUpIntervals_sorted l1)

theorem isWindow_perm {l1 l2 : List Report} {lo hi : Nat} (hp : l1.Perm l2)
    (h : IsWindow l1 lo hi) : IsWindow l2 lo hi := by
  unfold IsWindow at *
  simpa only [hp.mem_iff] using h

/-- The outcome depends only on the multiset of pooled reports. -/
theorem computeStationUptime_perm (sid sid2 : Nat) (chargers chargers2 : List Nat)
    (m m2 : GoMap (List Report))
    (hp : (pooledReports chargers m).Perm (pooledReports chargers2 m2)) :
    computeStationUptime sid chargers m = computeStationUptime sid2 chargers2 m2 := by
  by_cases hne : pooledReports chargers m = []
  · rw [computeStationUptime_nil sid chargers m hne,
      computeStationUptime_nil sid2 chargers2 m2 (by rw [hne] at hp; exact hp.symm.eq_nil)]
  · obtain ⟨lo, hi, hw⟩ := exists_isWindow hne
    rw [computeStationUptime_window sid chargers m lo hi hw,
      computeStationUptime_window sid2 chargers2 m2 lo hi (isWindow_perm hp hw)]
    have hf := hp.filter (fun r => r.up)
    have hs := sortUpIntervals_congr hf (fun r hr => (List.mem_filter.1 hr).2)
    have he : (pooledReports chargers m).filter (fun r => r.up) = [] ↔
        (pooledReports chargers2 m2).filter (fun r => r.up) = [] :=
      ⟨fun h => by rw [h] at hf; exact hf.symm.eq_nil, fun h => by rw [h] at hf; exact hf.eq_nil⟩
    rw [hs]
    simp only [he]

/-! ## Maps and the sorted station ids -/

theorem mapGet_eq_some_iff {V : Type} {m : GoMap V} (hnd : (mapKeys m).Nodup) (k : Nat) (v : V) :
    mapGet m k = some v ↔ (k, v) ∈ m := by
  induction m with
  | nil => simp [mapGet]
  | cons e rest ih =>
      obtain ⟨k0, v0⟩ := e
      simp only [mapKeys, List.map_cons, List.nodup_cons, List.mem_map, not_exists, not_and] at hnd
      have ih2 := ih hnd.2
      unfold mapGet at ih2 ⊢
      rw [List.lookup_cons]
      by_cases hk : k = k0
      · subst hk
        simp only [beq_self_eq_true, Option.some.injEq, List.mem_cons, Prod.mk.injEq, true_and]
        constructor
        · intro h; exact Or.inl h.symm
        · rintro (h | h)
          · exact h.symm
          · exact absurd rfl (hnd.1 (k, v) h)
      · have : (k == k0) = false := by simpa using hk
        simp only [this, ih2, List.mem_cons, Prod.mk.injEq, hk, false_and, false_or]

theorem mapGet_perm {V : Type} {m m2 : GoMap V} (hp : m.Perm m2) (hnd : (mapKeys m).Nodup)
    (k : Nat) : mapGet m k = mapGet m2 k := by
  have hnd2 : (mapKeys m2).Nodup := (hp.map Prod.fst).nodup_iff.1 hnd
  apply Option.ext
  intro v
  simp only [Option.mem_def]
  rw [mapGet_eq_some_iff hnd, mapGet_eq_some_iff hnd2, hp.mem_iff]

theorem sortStationIDs_perm (l : List Nat) : (sortStationIDs l).Perm l :=
  List.perm_insertionSort _ l

theorem sortStationIDs_sorted (l : List Nat) : (sortStationIDs l).Sorted (fun a b => a ≤ b) :=
  List.sorted_insertionSort _ l

theorem sortStationIDs_congr {l1 l2 : List Nat} (hp : l1.Perm l2) :
    sortStationIDs l1 = sortStationIDs l2 :=
  List.eq_of_perm_of_sorted (((sortStationIDs_perm l1).trans hp).trans (sortStationIDs_perm l2).symm)
    (sortStationIDs_sorted l1) (sortStationIDs_sorted l2)

theorem sortStationIDs_strict {l : List Nat} (hnd : l.Nodup) :
    (sortStationIDs l).Sorted (fun a b => a < b) := by
  have h1 := sortStationIDs_sorted l
  have h2 : (sortStationIDs l).Nodup := (sortStationIDs_perm l).nodup_iff.2 hnd
  unfold List.Sorted at *
  unfold List.Nodup at h2
  exact (h1.and h2).imp (fun ⟨h, hne⟩ => lt_of_le_of_ne h hne)

theorem resultsLoop_congr (s2c s2c2 : GoMap (List Nat)) (m : GoMap (List Report))
    (h : ∀ sid, chargersOf s2c sid = chargersOf s2c2 sid) :
    ∀ (ids : List Nat) (acc : List StationResult),
      resultsLoop s2c m ids acc = resultsLoop s2c2 m ids acc := by
  intro ids
  induction ids with
  | nil => intro acc; rfl
  | cons sid rest ih =>
      intro acc
      unfold resultsLoop
      rw [h sid]
      split
      · rfl
      · exact ih _

theorem pooledReports_singleton (cid : Nat) (m : GoMap (List Report)) :
    pooledReports [cid] m = reportsOf m cid := by
  simp [pooledReports]

/-! ## Ingestion of single lines -/

theorem fieldsGo_mem (s : List Char) :
    ∀ (cur : List Char), (∀ c ∈ cur, isSpace c = false) →
      ∀ f ∈ fieldsGo s cur, f ≠ [] ∧ ∀ c ∈ f, isSpace c = false := by
  induction s with
  | nil =>
      intro cur hcur f hf
      unfold fieldsGo at hf
      cases cur with
      | nil => simp at hf
      | cons x xs =>
          simp only [List.isEmpty_cons, Bool.false_eq_true, if_false, List.mem_singleton] at hf
          subst hf
          refine ⟨by simp, ?_⟩
          intro c hc
          exact hcur c (List.mem_reverse.1 hc)
  | cons a s ih =>
      intro cur hcur f hf
      unfold fieldsGo at hf
      by_cases hsp : isSpace a = true
      · rw [if_pos hsp] at hf
        cases cur with
        | nil =>
            simp only [List.isEmpty_nil, if_true] at hf
            exact ih [] (by simp) f hf
        | cons x xs =>
            simp only [List.isEmpty_cons, Bool.false_eq_true, if_false, List.mem_cons] at hf
            rcases hf with hf | hf
            · subst hf
              refine ⟨by simp, ?_⟩
              intro c hc
              exact hcur c (List.mem_reverse.1 hc)
            · exact ih [] (by simp) f hf
      · rw [if_neg hsp] at hf
        refine ih (a :: cur) ?_ f hf
        intro c hc
        rcases List.mem_cons.1 hc with hc | hc
        · rw [hc]; simpa using hsp
        · exact hcur c hc

theorem fieldsGo_flatten (s : List Char) :
    ∀ (cur : List Char),
      (fieldsGo s cur).flatten = cur.reverse ++ s.filter (fun c => !isSpace c) := by
  induction s with
  | nil =>
      intro cur
      unfold fieldsGo
      cases cur <;> simp
  | cons a s ih =>
      intro cur
      unfold fieldsGo
      by_cases hsp : isSpace a = true
      · rw [if_pos hsp]
        cases cur with
        | nil => simp [ih, hsp]
        | cons x xs => simp [ih, hsp]
      · rw [if_neg hsp, ih]
        simp [hsp]

/-- The fields of a line are non-empty, contain no white space, and together are the
non-space characters of the line in order. -/
theorem fields_spec (s : List Char) :
    (∀ f ∈ fields s, f ≠ [] ∧ ∀ c ∈ f, isSpace c = false) ∧
    (fields s).flatten = s.filter (fun c => !isSpace c) := by
  refine ⟨fieldsGo_mem s [] (by simp), ?_⟩
  unfold fields
  rw [fieldsGo_flatten]
  simp

theorem le_decimalValue (s : List Char) (n : Nat) : n ≤ decimalValue s n := by
  induction s generalizing n with
  | nil => exact Nat.le_refl _
  | cons c cs ih =>
      unfold decimalValue at ih ⊢
      rw [List.foldl_cons]
      exact le_trans (by omega) (ih _)

theorem parseUintGo_eq_some_iff (maxVal : Nat) (hmax : maxVal < u64Size) :
    ∀ (s : List Char) (n0 n : Nat),
      parseUintGo maxVal s n0 = some n ↔
        (∀ c ∈ s, 48 ≤ c.toNat ∧ c.toNat ≤ 57) ∧ decimalValue s n0 = n ∧
          (s ≠ [] → n ≤ maxVal) := by
  intro s
  induction s with
  | nil =>
      intro n0 n
      simp [parseUintGo, decimalValue]
  | cons c cs ih =>
      intro n0 n
      unfold parseUintGo
      have hu : u64Size = 18446744073709551616 := by unfold u64Size; norm_num
      by_cases hd : 48 ≤ c.toNat ∧ c.toNat ≤ 57
      · rw [if_pos hd]
        have hge := le_decimalValue cs (n0 * 10 + (c.toNat - 48))
        have hval : decimalValue (c :: cs) n0 = decimalValue cs (n0 * 10 + (c.toNat - 48)) := rfl
        by_cases hcut : n0 ≥ (u64Size - 1) / 10 + 1
        · rw [if_pos hcut]
          constructor
          · intro h; exact absurd h (by simp)
          · rintro ⟨_, h2, h3⟩
            have := h3 (by simp)
            rw [hval] at h2
            rw [hu] at hcut hmax
            omega
        · rw [if_neg hcut]
          simp only
          rw [hu] at hcut
          have h10 : n0 * 10 % u64Size = n0 * 10 := Nat.mod_eq_of_lt (by rw [hu]; omega)
          rw [h10]
          by_cases hwrap : n0 * 10 + (c.toNat - 48) < u64Size
          · rw [Nat.mod_eq_of_lt hwrap]
            by_cases hbad : n0 * 10 + (c.toNat - 48) < n0 * 10 ∨ n0 * 10 + (c.toNat - 48) > maxVal
            · rw [if_pos hbad]
              constructor
              · intro h; exact absurd h (by simp)
              · rintro ⟨_, h2, h3⟩
                have := h3 (by simp)
                rw [hval] at h2
                omega
            · rw [if_neg hbad, ih]
              rw [hval]
              constructor
              · rintro ⟨h1, h2, h3⟩
                refine ⟨?_, h2, ?_⟩
                · intro x hx
                  rcases List.mem_cons.1 hx with hx | hx
                  · rw [hx]; exact hd
                  · exact h1 x hx
                · intro _
                  by_cases hcs : cs = []
                  · subst hcs
                    simp only [decimalValue, List.foldl_nil] at h2
                    omega
                  · exact h3 hcs
              · rintro ⟨h1, h2, h3⟩
                exact ⟨fun x hx => h1 x (List.mem_cons_of_mem _ hx), h2, fun _ => h3 (by simp)⟩
          · have hmod : (n0 * 10 + (c.toNat - 48)) % u64Size < n0 * 10 := by
              have : (n0 * 10 + (c.toNat - 48)) % u64Size
                  = n0 * 10 + (c.toNat - 48) - u64Size := by
                rw [Nat.mod_eq_sub_mod (by omega)]
                exact Nat.mod_eq_of_lt (by rw [hu]; omega)
              rw [this, hu]
              omega
            rw [if_pos (Or.inl hmod)]
            constructor
            · intro h; exact absurd h (by simp)
            · rintro ⟨_, h2, h3⟩
              have := h3 (by simp)
              rw [hval] at h2
              omega
      · rw [if_neg hd]
        constructor
        · intro h; exact absurd h (by simp)
        · rintro ⟨h1, _⟩
          exact absurd (h1 c (List.mem_cons_self _ _)) hd

/-- Go `strconv.ParseUint(s, 10, bitSize)` succeeds exactly on the non-empty strings of
ASCII digits whose decimal value fits the bit size, and returns that value. -/
theorem ParseUint_eq_some_iff (s : List Char) (bitSize n : Nat) (hbits : bitSize ≤ 64) :
    ParseUint s bitSize = some n ↔
      s ≠ [] ∧ (∀ c ∈ s, 48 ≤ c.toNat ∧ c.toNat ≤ 57) ∧ decimalValue s 0 = n ∧
        n < 2 ^ bitSize := by
  unfold ParseUint
  have hpos : 0 < 2 ^ bitSize := Nat.pow_pos (by norm_num)
  have hle : 2 ^ bitSize ≤ u64Size := Nat.pow_le_pow_right (by norm_num) hbits
  cases s with
  | nil => simp
  | cons c cs =>
      simp only [List.isEmpty_cons, Bool.false_eq_true, if_false, ne_eq, not_false_eq_true,
        true_and, reduceCtorEq]
      rw [parseUintGo_eq_some_iff (2 ^ bitSize - 1) (by omega)]
      constructor
      · rintro ⟨h1, h2, h3⟩
        have := h3 (by simp)
        exact ⟨h1, h2, by omega⟩
      · rintro ⟨h1, h2, h3⟩
        exact ⟨h1, h2, fun _ => by omega⟩

theorem mapGet_mapSet {V : Type} (m : GoMap V) (k : Nat) (v : V) (k2 : Nat) :
    mapGet (mapSet m k v) k2 = if k2 = k then some v else mapGet m k2 := by
  induction m with
  | nil =>
      unfold mapGet mapSet
      by_cases h : k2 = k
      · simp [List.lookup, h]
      · have hb : (k2 == k) = false := by simpa using h
        simp [List.lookup, h, hb]
  | cons e rest ih =>
      obtain ⟨k0, v0⟩ := e
      unfold mapGet at ih ⊢
      unfold mapSet
      by_cases hk : k = k0
      · subst hk
        by_cases h2 : k2 = k
        · simp [List.lookup_cons, h2]
        · have hb : (k2 == k) = false := by simpa using h2
          simp [List.lookup_cons, h2, hb]
      · have hk2 : (k == k0) = false := by simpa using hk
        simp only [hk2, Bool.false_eq_true, if_false, List.lookup_cons, ih]
        by_cases h2 : k2 = k0
        · subst h2
          simp [Ne.symm hk]
        · have : (k2 == k0) = false := by simpa using h2
          simp [this]

theorem mapHas_mapSet {V : Type} (m : GoMap V) (k : Nat) (v : V) (k2 : Nat) :
    mapHas (mapSet m k v) k2 = (decide (k2 = k) || mapHas m k2) := by
  unfold mapHas
  rw [mapGet_mapSet]
  by_cases h : k2 = k <;> simp [h]

theorem reportsOf_mapSet_self (m : GoMap (List Report)) (k : Nat) (v : List Report) :
    reportsOf (mapSet m k v) k = v := by
  unfold reportsOf
  rw [mapGet_mapSet]
  simp

theorem toLowerRune_eq_iff (c x : Char) (h1 : x.toNat ≠ 105) (h2 : x.toNat ≠ 107)
    (h3 : x.toNat ≠ 304) (h4 : x.toNat ≠ 8490) : toLowerRune c = x ↔ c.toLower = x := by
  unfold toLowerRune Char.toLower
  simp only [ge_iff_le]
  by_cases hu : 65 ≤ c.toNat ∧ c.toNat ≤ 90
  · rw [if_pos hu, if_pos hu]
  · rw [if_neg hu, if_neg hu]
    by_cases ha : c.toNat = 304
    · rw [if_pos ha]
      constructor
      · intro h
        rw [← h] at h1
        exact absurd (by decide) h1
      · intro h
        rw [← h] at h3
        exact absurd ha h3
    · rw [if_neg ha]
      by_cases hb : c.toNat = 8490
      · rw [if_pos hb]
        constructor
        · intro h
          rw [← h] at h2
          exact absurd (by decide) h2
        · intro h
          rw [← h] at h4
          exact absurd hb h4
      · rw [if_neg hb]

theorem ToLower_eq_iff (w : List Char)
    (hw : ∀ x ∈ w, x.toNat ≠ 105 ∧ x.toNat ≠ 107 ∧ x.toNat ≠ 304 ∧ x.toNat ≠ 8490) :
    ∀ s : List Char, ToLower s = w ↔ s.map Char.toLower = w := by
  induction w with
  | nil =>
      intro s
      cases s <;> simp [ToLower]
  | cons x w ih =>
      intro s
      cases s with
      | nil => simp [ToLower]
      | cons c s =>
          have hx := hw x (List.mem_cons_self _ _)
          have ih2 := ih (fun y hy => hw y (List.mem_cons_of_mem _ hy)) s
          unfold ToLower at ih2 ⊢
          simp only [List.map_cons, List.cons.injEq]
          rw [toLowerRune_eq_iff c x hx.1 hx.2.1 hx.2.2.1 hx.2.2.2, ih2]

theorem parseBoolTF_eq_some_iff (s : List Char) (b : Bool) :
    parseBoolTF s = some b ↔
      (s.map Char.toLower = "true".toList ∧ b = true) ∨
      (s.map Char.toLower = "false".toList ∧ b = false) := by
  have ht := ToLower_eq_iff "true".toList (by decide) s
  have hf := ToLower_eq_iff "false".toList (by decide) s
  have hdiff : "true".toList ≠ "false".toList := by decide
  unfold parseBoolTF
  simp only
  by_cases h1 : ToLower s = "true".toList
  · rw [if_pos h1]
    have h1b := ht.1 h1
    constructor
    · intro h
      exact Or.inl ⟨h1b, (Option.some.inj h).symm⟩
    · rintro (⟨_, hb⟩ | ⟨h, _⟩)
      · rw [hb]
      · exact absurd (h1b.symm.trans h) hdiff
  · rw [if_neg h1]
    have h1b : ¬ (s.map Char.toLower = "true".toList) := fun h => h1 (ht.2 h)
    by_cases h2 : ToLower s = "false".toList
    · rw [if_pos h2]
      have h2b := hf.1 h2
      constructor
      · intro h
        exact Or.inr ⟨h2b, (Option.some.inj h).symm⟩
      · rintro (⟨h, _⟩ | ⟨_, hb⟩)
        · exact absurd h h1b
        · rw [hb]
    · rw [if_neg h2]
      have h2b : ¬ (s.map Char.toLower = "false".toList) := fun h => h2 (hf.2 h)
      constructor
      · intro h
        exact absurd h (by simp)
      · rintro (⟨h, _⟩ | ⟨h, _⟩)
        · exact absurd h h1b
        · exact absurd h h2b


theorem parseReportLine_of_fields (line : List Char) (c2s : GoMap Nat)
    (reps : GoMap (List Report)) (p0 p1 p2 p3 : List Char)
    (hf : fields line = [p0, p1, p2, p3]) :
    parseReportLine line c2s reps =
      (parseUint32 p0).bind fun cid =>
      (parseUint64 p1).bind fun start =>
      (parseUint64 p2).bind fun end_ =>
        if end_ < start then none
        else (parseBoolTF p3).bind fun up =>
          if mapHas c2s cid = true then
            some (mapSet reps cid (reportsOf reps cid ++ [⟨start, end_, up⟩]))
          else none := by
  unfold parseReportLine
  rw [hf]
  simp only [List.length_cons, List.length_nil, ne_eq, not_true_eq_false, if_false]
  cases parseUint32 p0 with
  | none => rfl
  | some cid =>
      cases parseUint64 p1 with
      | none => rfl
      | some start =>
          cases parseUint64 p2 with
          | none => rfl
          | some end_ =>
              simp only [Option.some_bind]
              by_cases hlt : end_ < start
              · rw [if_pos hlt, if_pos hlt]
              · rw [if_neg hlt, if_neg hlt]
                cases parseBoolTF p3 with
                | none => rfl
                | some up =>
                    simp only [Option.some_bind]
                    cases mapHas c2s cid <;> rfl

theorem parseReportLine_fields (line : List Char) (c2s : GoMap Nat)
    (reps reps2 : GoMap (List Report)) (h : parseReportLine line c2s reps = some reps2) :
    ∃ p0 p1 p2 p3, fields line = [p0, p1, p2, p3] := by
  unfold parseReportLine at h
  split_ifs at h with hlen
  rcases hf : fields line with _ | ⟨p0, _ | ⟨p1, _ | ⟨p2, _ | ⟨p3, _ | ⟨p4, t⟩⟩⟩⟩⟩
  all_goals first
    | exact ⟨p0, p1, p2, p3, rfl⟩
    | (rw [hf] at hlen; simp at hlen)


theorem chargerLoop_eq_some_iff (sid : Nat) :
    ∀ (ps : List (List Char)) (acc : List Nat) (c2s : GoMap Nat) (chargers : List Nat)
      (c2s2 : GoMap Nat),
      chargerLoop sid ps acc c2s = some (chargers, c2s2) ↔
        ∃ cids : List Nat, ps.map parseUint32 = cids.map some ∧
          (∀ c ∈ cids, mapHas c2s c = false) ∧ cids.Nodup ∧
          chargers = acc ++ cids ∧ c2s2 = assignChargers sid cids c2s := by
  intro ps
  induction ps with
  | nil =>
      intro acc c2s chargers c2s2
      simp only [chargerLoop, Option.some.injEq, Prod.mk.injEq, List.map_nil]
      constructor
      · rintro ⟨h1, h2⟩
        exact ⟨[], rfl, by simp, List.nodup_nil, by simp [h1], by simp [assignChargers, h2]⟩
      · rintro ⟨cids, h1, _, _, h4, h5⟩
        have : cids = [] := by
          cases cids with
          | nil => rfl
          | cons _ _ => simp at h1
        subst this
        simp only [List.append_nil] at h4
        exact ⟨h4.symm, h5.symm⟩
  | cons p ps ih =>
      intro acc c2s chargers c2s2
      unfold chargerLoop
      cases hp : parseUint32 p with
      | none =>
          constructor
          · intro h
            exact absurd h (by simp)
          · rintro ⟨cids, h1, _⟩
            cases cids with
            | nil => simp at h1
            | cons c cs =>
                simp only [List.map_cons, List.cons.injEq] at h1
                rw [hp] at h1
                exact absurd h1.1 (by simp)
      | some cid =>
          simp only
          by_cases hhas : mapHas c2s cid = true
          · rw [if_pos hhas]
            constructor
            · intro h
              exact absurd h (by simp)
            · rintro ⟨cids, h1, h2, _⟩
              cases cids with
              | nil => simp at h1
              | cons c cs =>
                  simp only [List.map_cons, List.cons.injEq] at h1
                  rw [hp] at h1
                  have hc : cid = c := Option.some.inj h1.1
                  have := h2 c (List.mem_cons_self _ _)
                  rw [← hc, hhas] at this
                  exact absurd this (by simp)
          · rw [if_neg hhas, ih]
            have hhas2 : mapHas c2s cid = false := by simpa using hhas
            constructor
            · rintro ⟨cs, h1, h2, h3, h4, h5⟩
              refine ⟨cid :: cs, by simp [hp, h1], ?_, ?_, by simp [h4], by simp [assignChargers, h5]⟩
              · intro c hc
                rcases List.mem_cons.1 hc with hc | hc
                · rw [hc]; exact hhas2
                · have := h2 c hc
                  rw [mapHas_mapSet] at this
                  simp only [Bool.or_eq_false_iff] at this
                  exact this.2
              · rw [List.nodup_cons]
                refine ⟨?_, h3⟩
                intro hmem
                have := h2 cid hmem
                rw [mapHas_mapSet] at this
                simp at this
            · rintro ⟨cids, h1, h2, h3, h4, h5⟩
              cases cids with
              | nil => simp at h1
              | cons c cs =>
                  simp only [List.map_cons, List.cons.injEq] at h1
                  rw [hp] at h1
                  have hc : cid = c := Option.some.inj h1.1
                  subst hc
                  rw [List.nodup_cons] at h3
                  refine ⟨cs, h1.2, ?_, h3.2, by simp [h4], by simp [assignChargers, h5]⟩
                  intro c hc
                  rw [mapHas_mapSet]
                  have hne : c ≠ cid := fun h => h3.1 (h ▸ hc)
                  simp [hne, h2 c (List.mem_cons_of_mem _ hc)]


theorem mapGet_assignChargers (sid : Nat) :
    ∀ (cids : List Nat) (c2s : GoMap Nat) (c : Nat),
      mapGet (assignChargers sid cids c2s) c = if c ∈ cids then some sid else mapGet c2s c := by
  intro cids
  induction cids with
  | nil => intro c2s c; simp [assignChargers]
  | cons x xs ih =>
      intro c2s c
      have h := ih (mapSet c2s x sid) c
      unfold assignChargers at h ⊢
      rw [List.foldl_cons, h, mapGet_mapSet]
      by_cases h1 : c ∈ xs
      · simp [h1]
      · by_cases h2 : c = x
        · simp [h2]
        · simp [h1, h2]

theorem parseStationsLine_of_fields (line : List Char) (s2c : GoMap (List Nat))
    (c2s : GoMap Nat) (p0 p1 : List Char) (ps : List (List Char))
    (hf : fields line = p0 :: p1 :: ps) :
    parseStationsLine line s2c c2s =
      (parseUint32 p0).bind fun sid =>
        if mapHas s2c sid = true then none
        else (chargerLoop sid (p1 :: ps) [] c2s).bind fun r =>
          some (mapSet s2c sid r.1, r.2) := by
  unfold parseStationsLine
  rw [hf]
  simp only [List.length_cons]
  rw [if_neg (by omega)]
  cases parseUint32 p0 with
  | none => rfl
  | some sid =>
      simp only [Option.some_bind]
      by_cases hhas : mapHas s2c sid = true
      · rw [if_pos hhas, if_pos hhas]
      · rw [if_neg hhas, if_neg hhas]
        cases chargerLoop sid (p1 :: ps) [] c2s with
        | none => rfl
        | some r => rfl

theorem parseStationsLine_short (line : List Char) (s2c : GoMap (List Nat))
    (c2s : GoMap Nat) (h : (fields line).length < 2) :
    parseStationsLine line s2c c2s = none := by
  unfold parseStationsLine
  rw [if_pos h]

theorem parseStationsLine_eq_some_iff (line : List Char) (s2c s2c2 : GoMap (List Nat))
    (c2s c2s2 : GoMap Nat) :
    parseStationsLine line s2c c2s = some (s2c2, c2s2) ↔
      ∃ p0 ps sid cids,
        fields line = p0 :: ps ∧ ps ≠ [] ∧ parseUint32 p0 = some sid ∧
        ps.map parseUint32 = cids.map some ∧ mapHas s2c sid = false ∧
        (∀ c ∈ cids, mapHas c2s c = false) ∧ cids.Nodup ∧
        s2c2 = mapSet s2c sid cids ∧ c2s2 = assignChargers sid cids c2s := by
  rcases hf : fields line with _ | ⟨p0, _ | ⟨p1, ps⟩⟩
  · rw [parseStationsLine_short line s2c c2s (by simp [hf])]
    simp
  · rw [parseStationsLine_short line s2c c2s (by simp [hf])]
    simp
  · rw [parseStationsLine_of_fields line s2c c2s p0 p1 ps hf]
    constructor
    · intro h
      obtain ⟨sid, hsid, h⟩ := Option.bind_eq_some.1 h
      by_cases hhas : mapHas s2c sid = true
      · rw [if_pos hhas] at h
        exact absurd h (by simp)
      · rw [if_neg hhas] at h
        obtain ⟨⟨chargers, c2s3⟩, hloop, h⟩ := Option.bind_eq_some.1 h
        obtain ⟨cids, h1, h2, h3, h4, h5⟩ :=
          (chargerLoop_eq_some_iff sid (p1 :: ps) [] c2s chargers c2s3).1 hloop
        simp only [Option.some.injEq, Prod.mk.injEq] at h
        rw [List.nil_append] at h4
        subst h4 h5
        exact ⟨p0, p1 :: ps, sid, chargers, rfl, by simp, hsid, h1, by simpa using hhas, h2, h3,
          h.1.symm, h.2.symm⟩
    · rintro ⟨q0, qs, sid, cids, hq, _, hsid, h1, hhas, h2, h3, h4, h5⟩
      simp only [List.cons.injEq] at hq
      obtain ⟨hq0, hqs⟩ := hq
      subst hq0 hqs
      rw [hsid, Option.some_bind, if_neg (by simp [hhas]),
        (chargerLoop_eq_some_iff sid (p1 :: ps) [] c2s cids (assignChargers sid cids c2s)).2
          ⟨cids, h1, h2, h3, by simp, rfl⟩, Option.some_bind, h4, h5]

/-! ## Bounds of the sweep and order properties of the result -/

/-- The loop invariant of the merging sweep below the bound `B`: the open interval is
well-formed and the running total plus everything that can still be added fits `uint64`. -/
theorem sweep_invariant (B : Nat) (hB : B < u64Size) :
    ∀ (l : List Report) (st : SweepState),
      st.currentStart ≤ st.currentEnd → st.currentEnd ≤ B →
      (∀ r ∈ l, st.currentStart ≤ r.start ∧ r.start ≤ r.end_ ∧ r.end_ ≤ B) →
      l.Pairwise (fun a b => a.start ≤ b.start) →
      st.totalUp + (B - st.currentStart) < u64Size →
      (l.foldl sweepStep st).currentStart ≤ (l.foldl sweepStep st).currentEnd ∧
      (l.foldl sweepStep st).currentEnd ≤ B ∧
      (l.foldl sweepStep st).totalUp + (B - (l.foldl sweepStep st).currentStart) < u64Size := by
  intro l
  induction l with
  | nil =>
      intro st h1 h2 _ _ h5
      exact ⟨h1, h2, h5⟩
  | cons r rest ih =>
      intro st h1 h2 h3 h4 h5
      obtain ⟨hr1, hr2, hr3⟩ := h3 r (by simp)
      have h3rest : ∀ x ∈ rest, r.start ≤ x.start ∧ x.start ≤ x.end_ ∧ x.end_ ≤ B := by
        intro x hx
        exact ⟨(List.pairwise_cons.1 h4).1 x hx, (h3 x (by simp [hx])).2⟩
      have h4rest := (List.pairwise_cons.1 h4).2
      rw [List.foldl_cons]
      by_cases hov : r.start ≤ st.currentEnd
      · by_cases hext : r.end_ > st.currentEnd
        · have hs : sweepStep st r = SweepState.mk st.currentStart r.end_ st.totalUp := by
            simp [sweepStep, hov, hext]
          rw [hs]
          exact ih _ (by simp only; omega) hr3
            (fun x hx => ⟨le_trans hr1 (h3rest x hx).1, (h3rest x hx).2⟩) h4rest h5
        · have hs : sweepStep st r = st := by
            simp [sweepStep, hov, hext]
          rw [hs]
          exact ih _ h1 h2
            (fun x hx => ⟨le_trans hr1 (h3rest x hx).1, (h3rest x hx).2⟩) h4rest h5
      · have hs : sweepStep st r = SweepState.mk r.start r.end_
            (addU64 st.totalUp (subU64 st.currentEnd st.currentStart)) := by
          simp [sweepStep, hov]
        rw [hs]
        have hsub : subU64 st.currentEnd st.currentStart = st.currentEnd - st.currentStart :=
          subU64_of_le h1 (by omega)
        have hadd : addU64 st.totalUp (st.currentEnd - st.currentStart)
            = st.totalUp + (st.currentEnd - st.currentStart) := addU64_of_lt (by omega)
        exact ih _ hr2 hr3 (fun x hx => h3rest x hx) h4rest
          (by simp only [hsub, hadd]; omega)

theorem scanStation_of_window (chargers : List Nat) (m : GoMap (List Report)) (lo hi : Nat)
    (hw : IsWindow (pooledReports chargers m) lo hi) :
    (scanStation chargers m).minStart = lo ∧ (scanStation chargers m).maxEnd = hi ∧
    (scanStation chargers m).upIntervals
      = (pooledReports chargers m).filter (fun r => r.up) := by
  have hne := isWindow_ne_nil hw
  obtain ⟨_, _, h3⟩ := scan_window _ hne
  obtain ⟨e1, e2⟩ := isWindow_unique h3 hw
  have hup := scan_upIntervals (pooledReports chargers m) scanInit
  rw [scanStation_eq_pooled]
  exact ⟨e1, e2, by rw [hup]; rfl⟩

theorem scanStation_of_nil (chargers : List Nat) (m : GoMap (List Report))
    (h : pooledReports chargers m = []) : scanStation chargers m = scanInit := by
  rw [scanStation_eq_pooled, h]
  rfl

theorem isWindow_le {rs : List Report} {lo hi : Nat} (hw : IsWindow rs lo hi)
    (hvalid : ∀ r ∈ rs, r.start ≤ r.end_) : lo ≤ hi := by
  obtain ⟨⟨a, ha, ha1⟩, _, _, hhi⟩ := hw
  have h1 := hvalid a ha
  have h2 := hhi a ha
  omega

theorem isWindow_hi_lt {rs : List Report} {lo hi : Nat} (hw : IsWindow rs lo hi)
    (hrange : ∀ r ∈ rs, r.InRange) : hi < u64Size := by
  obtain ⟨_, _, ⟨b, hb, hb1⟩, _⟩ := hw
  have := (hrange b hb).2
  omega

/-- The facts about the sorted up intervals that the sweep lemmas need. -/
theorem sorted_up_facts (chargers : List Nat) (m : GoMap (List Report)) (lo hi : Nat)
    (hvalid : ∀ r ∈ pooledReports chargers m, r.InRange ∧ r.start ≤ r.end_)
    (hw : IsWindow (pooledReports chargers m) lo hi) (r0 : Report) (rest : List Report)
    (hs : sortUpIntervals ((pooledReports chargers m).filter (fun r => r.up)) = r0 :: rest) :
    (r0 :: rest).Pairwise (fun a b => a.start ≤ b.start) ∧
    (∀ r ∈ r0 :: rest, lo ≤ r.start ∧ r.start ≤ r.end_ ∧ r.end_ ≤ hi) := by
  have hperm := sortUpIntervals_perm ((pooledReports chargers m).filter (fun r => r.up))
  have hpw := sortUpIntervals_pairwise_start ((pooledReports chargers m).filter (fun r => r.up))
  rw [hs] at hperm hpw
  refine ⟨hpw, ?_⟩
  intro r hr
  have hmem : r ∈ pooledReports chargers m := (List.mem_filter.1 (hperm.mem_iff.1 hr)).1
  obtain ⟨_, hlo, _, hhi⟩ := hw
  exact ⟨hlo r hmem, (hvalid r hmem).2, hhi r hmem⟩

theorem forall₂_mem_left {α β : Type} {R : α → β → Prop} :
    ∀ {l : List α} {l2 : List β}, List.Forall₂ R l l2 → ∀ a ∈ l, ∃ b ∈ l2, R a b := by
  intro l l2 h
  induction h with
  | nil => intro a ha; simp at ha
  | cons hab _ ih =>
      intro a ha
      rcases List.mem_cons.1 ha with ha | ha
      · subst ha
        exact ⟨_, List.mem_cons_self _ _, hab⟩
      · obtain ⟨b, hb, hr⟩ := ih a ha
        exact ⟨b, List.mem_cons_of_mem _ hb, hr⟩

theorem forall₂_mem_right {α β : Type} {R : α → β → Prop} :
    ∀ {l : List α} {l2 : List β}, List.Forall₂ R l l2 → ∀ b ∈ l2, ∃ a ∈ l, R a b := by
  intro l l2 h
  induction h with
  | nil => intro b hb; simp at hb
  | cons hab _ ih =>
      intro b hb
      rcases List.mem_cons.1 hb with hb | hb
      · subst hb
        exact ⟨_, List.mem_cons_self _ _, hab⟩
      · obtain ⟨a, ha, hr⟩ := ih b hb
        exact ⟨a, List.mem_cons_of_mem _ ha, hr⟩

theorem pooled_raised_left (chargers : List Nat) (m m2 : GoMap (List Report))
    (h : ∀ cid ∈ chargers, List.Forall₂ UpFlagRaised (reportsOf m cid) (reportsOf m2 cid)) :
    ∀ r ∈ pooledReports chargers m, ∃ r2 ∈ pooledReports chargers m2, UpFlagRaised r r2 := by
  intro r hr
  obtain ⟨cid, hcid, hmem⟩ := List.mem_flatMap.1 hr
  obtain ⟨r2, hr2, hrel⟩ := forall₂_mem_left (h cid hcid) r hmem
  exact ⟨r2, List.mem_flatMap.2 ⟨cid, hcid, hr2⟩, hrel⟩

theorem pooled_raised_right (chargers : List Nat) (m m2 : GoMap (List Report))
    (h : ∀ cid ∈ chargers, List.Forall₂ UpFlagRaised (reportsOf m cid) (reportsOf m2 cid)) :
    ∀ r2 ∈ pooledReports chargers m2, ∃ r ∈ pooledReports chargers m, UpFlagRaised r r2 := by
  intro r2 hr2
  obtain ⟨cid, hcid, hmem⟩ := List.mem_flatMap.1 hr2
  obtain ⟨r, hr, hrel⟩ := forall₂_mem_right (h cid hcid) r2 hmem
  exact ⟨r, List.mem_flatMap.2 ⟨cid, hcid, hr⟩, hrel⟩

theorem covered_eq_Ico_iff {rs : List Report} {lo hi : Nat}
    (h : ∀ r ∈ rs, lo ≤ r.start ∧ r.end_ ≤ hi) :
    (covered rs).card = hi - lo ↔
      ∀ t, lo ≤ t → t < hi → ∃ r ∈ rs, r.start ≤ t ∧ t < r.end_ := by
  have hsub := covered_subset_Ico h
  constructor
  · intro hcard t h1 h2
    have heq : covered rs = Finset.Ico lo hi :=
      Finset.eq_of_subset_of_card_le hsub (by rw [Nat.card_Ico, hcard])
    have ht : t ∈ covered rs := by
      rw [heq, Finset.mem_Ico]
      exact ⟨h1, h2⟩
    exact mem_covered.1 ht
  · intro hall
    have heq : covered rs = Finset.Ico lo hi := by
      apply Finset.Subset.antisymm hsub
      intro t ht
      rw [Finset.mem_Ico] at ht
      exact mem_covered.2 (hall t ht.1 ht.2)
    rw [heq, Nat.card_Ico]

/-! ## The scanning loop of parseInput -/

theorem scanLoop_eq_processLines (lines : List (List Char)) :
    ∀ v : ParseVars, scanLoop lines v = processLines (trimmedLines lines) v := by
  induction lines with
  | nil => intro v; rfl
  | cons text rest ih =>
      intro v
      unfold scanLoop scanLine
      by_cases hb : TrimSpace text = []
      · have ht : trimmedLines (text :: rest) = trimmedLines rest := by
          simp [trimmedLines, hb]
        simp only [hb, if_true]
        rw [ht, ih]
      · have ht : trimmedLines (text :: rest) = TrimSpace text :: trimmedLines rest := by
          simp [trimmedLines, hb]
        simp only [hb, if_false]
        rw [ht]
        unfold processLines
        cases processLine v (TrimSpace text) with
        | none => rfl
        | some v2 => exact ih v2

theorem stationsHeader_ne_reportsHeader : stationsHeader ≠ reportsHeader := by decide

theorem processLines_reports (R : List (List Char)) :
    ∀ (v w : ParseVars), v.state = parseState.stateReports →
      processLines R v = some w →
      HeaderFree R ∧ reportsFold R v.chargerToStation v.chargerReports = some w.chargerReports ∧
        w.state = parseState.stateReports ∧ w.stationToChargers = v.stationToChargers ∧
        w.chargerToStation = v.chargerToStation := by
  induction R with
  | nil =>
      intro v w hst h
      simp only [processLines, Option.some.injEq] at h
      subst h
      exact ⟨by simp [HeaderFree], rfl, hst, rfl, rfl⟩
  | cons line rest ih =>
      intro v w hst h
      unfold processLines at h
      unfold processLine at h
      by_cases h1 : line = stationsHeader
      · simp [h1, hst] at h
      · by_cases h2 : line = reportsHeader
        · simp [h1, h2, hst, stationsHeader_ne_reportsHeader.symm] at h
        · simp only [h1, h2, if_false, hst] at h
          cases hp : parseReportLine line v.chargerToStation v.chargerReports with
          | none => simp [hp] at h
          | some reps =>
              simp only [hp] at h
              obtain ⟨hf, hr, hs, hs2, hs3⟩ := ih _ w rfl h
              refine ⟨?_, ?_, hs, hs2, hs3⟩
              · intro x hx
                rcases List.mem_cons.1 hx with hx | hx
                · rw [hx]; exact ⟨h1, h2⟩
                · exact hf x hx
              · unfold reportsFold
                rw [hp]
                exact hr

theorem processLines_stations (T : List (List Char)) :
    ∀ (v w : ParseVars), v.state = parseState.stateStations →
      processLines T v = some w →
      ∃ S R, HeaderFree S ∧ HeaderFree R ∧
        stationsFold S v.stationToChargers v.chargerToStation
          = some (w.stationToChargers, w.chargerToStation) ∧
        reportsFold R w.chargerToStation v.chargerReports = some w.chargerReports ∧
        ((T = S ∧ R = [] ∧ w.state = parseState.stateStations) ∨
          (T = S ++ reportsHeader :: R ∧ w.state = parseState.stateReports)) := by
  induction T with
  | nil =>
      intro v w hst h
      simp only [processLines, Option.some.injEq] at h
      subst h
      exact ⟨[], [], by simp [HeaderFree], by simp [HeaderFree], rfl, rfl,
        Or.inl ⟨rfl, rfl, hst⟩⟩
  | cons line rest ih =>
      intro v w hst h
      unfold processLines at h
      unfold processLine at h
      by_cases h1 : line = stationsHeader
      · simp [h1, hst] at h
      · by_cases h2 : line = reportsHeader
        · simp only [h1, h2, if_false, if_true, hst, ne_eq, not_true_eq_false] at h
          obtain ⟨hf, hr, hs, hs2, hs3⟩ := processLines_reports rest _ w rfl h
          simp only at hr hs2 hs3
          refine ⟨[], rest, by simp [HeaderFree], hf, ?_, ?_, Or.inr ⟨by rw [h2]; rfl, hs⟩⟩
          · rw [hs2, hs3]; rfl
          · rw [hs3]; exact hr
        · simp only [h1, h2, if_false, hst] at h
          cases hp : parseStationsLine line v.stationToChargers v.chargerToStation with
          | none => simp [hp] at h
          | some ab =>
              obtain ⟨a, b⟩ := ab
              simp only [hp] at h
              obtain ⟨S, R, hS, hR, hsf, hrf, hshape⟩ := ih _ w rfl h
              simp only at hsf hrf
              refine ⟨line :: S, R, ?_, hR, ?_, hrf, ?_⟩
              · intro x hx
                rcases List.mem_cons.1 hx with hx | hx
                · rw [hx]; exact ⟨h1, h2⟩
                · exact hS x hx
              · unfold stationsFold
                rw [hp]
                exact hsf
              · rcases hshape with ⟨e1, e2, e3⟩ | ⟨e1, e2⟩
                · exact Or.inl ⟨by rw [e1], e2, e3⟩
                · exact Or.inr ⟨by rw [e1]; rfl, e2⟩

/-- The shape of every input the scanning loop accepts: nothing at all, or the stations
header, header-free station lines, and optionally the reports header followed by
header-free report lines. -/
theorem processLines_init (T : List (List Char)) (w : ParseVars)
    (h : processLines T parseInit = some w) :
    (T = [] ∧ w = parseInit) ∨
    ∃ S R, HeaderFree S ∧ HeaderFree R ∧
      stationsFold S [] [] = some (w.stationToChargers, w.chargerToStation) ∧
      reportsFold R w.chargerToStation [] = some w.chargerReports ∧
      ((T = stationsHeader :: S ∧ R = [] ∧ w.state = parseState.stateStations) ∨
        (T = stationsHeader :: S ++ reportsHeader :: R ∧
          w.state = parseState.stateReports)) := by
  cases T with
  | nil =>
      simp only [processLines, Option.some.injEq] at h
      exact Or.inl ⟨rfl, h.symm⟩
  | cons line rest =>
      right
      unfold processLines at h
      unfold processLine at h
      by_cases h1 : line = stationsHeader
      · simp only [h1, if_true, parseInit, ne_eq, not_true_eq_false, if_false] at h
        obtain ⟨S, R, hS, hR, hsf, hrf, hshape⟩ := processLines_stations rest _ w rfl h
        refine ⟨S, R, hS, hR, hsf, hrf, ?_⟩
        rcases hshape with ⟨e1, e2, e3⟩ | ⟨e1, e2⟩
        · exact Or.inl ⟨by rw [h1, e1], e2, e3⟩
        · exact Or.inr ⟨by rw [h1, e1]; rfl, e2⟩
      · by_cases h2 : line = reportsHeader
        · simp [h1, h2, parseInit, stationsHeader_ne_reportsHeader.symm] at h
        · simp [h1, h2, parseInit] at h

/-! ## Invariants of the parsed maps -/

theorem mapHas_iff_mem_keys {V : Type} (m : GoMap V) (k : Nat) :
    mapHas m k = true ↔ k ∈ mapKeys m := by
  induction m with
  | nil => simp [mapHas, mapGet, mapKeys]
  | cons e rest ih =>
      obtain ⟨k0, v0⟩ := e
      unfold mapHas mapGet mapKeys at *
      rw [List.lookup_cons]
      by_cases hk : k = k0
      · subst hk; simp
      · have : (k == k0) = false := by simpa using hk
        simp only [this, List.map_cons, List.mem_cons, hk, false_or]
        exact ih

theorem mapHas_eq_false_iff {V : Type} (m : GoMap V) (k : Nat) :
    mapHas m k = false ↔ mapGet m k = none := by
  unfold mapHas
  cases mapGet m k <;> simp

theorem mapKeys_mapSet_of_not_has {V : Type} (m : GoMap V) (k : Nat) (v : V)
    (h : mapHas m k = false) : mapKeys (mapSet m k v) = mapKeys m ++ [k] := by
  induction m with
  | nil => rfl
  | cons e rest ih =>
      obtain ⟨k0, v0⟩ := e
      have hne : k ≠ k0 := by
        intro hk
        have : mapHas ((k0, v0) :: rest) k = true := by
          rw [mapHas_iff_mem_keys]; simp [mapKeys, hk]
        rw [h] at this
        exact absurd this (by simp)
      have hrest : mapHas rest k = false := by
        rw [mapHas_eq_false_iff] at h ⊢
        unfold mapGet at h ⊢
        rw [List.lookup_cons] at h
        have : (k == k0) = false := by simpa using hne
        simpa [this] using h
      unfold mapSet
      have hb : (k == k0) = false := by simpa using hne
      simp only [hb, Bool.false_eq_true, if_false]
      have := ih hrest
      unfold mapKeys at this ⊢
      simp only [List.map_cons, List.cons_append, this]

theorem mapGet_isSome_of_mem_keys {V : Type} (m : GoMap V) (k : Nat) (h : k ∈ mapKeys m) :
    ∃ v, mapGet m k = some v := by
  have := (mapHas_iff_mem_keys m k).2 h
  unfold mapHas at this
  exact Option.isSome_iff_exists.1 this

theorem mem_keys_of_mapGet {V : Type} (m : GoMap V) (k : Nat) (v : V)
    (h : mapGet m k = some v) : k ∈ mapKeys m := by
  rw [← mapHas_iff_mem_keys]
  unfold mapHas
  rw [h]
  rfl

theorem stationsInv_step (line : List Char) (s2c a : GoMap (List Nat)) (c2s b : GoMap Nat)
    (hinv : StationsInv s2c c2s) (h : parseStationsLine line s2c c2s = some (a, b)) :
    StationsInv a b := by
  obtain ⟨p0, ps, sid, cids, _, hne, _, hmap, hsid, hfresh, hnd, ha, hb⟩ :=
    (parseStationsLine_eq_some_iff line s2c a c2s b).1 h
  subst ha hb
  obtain ⟨hk, hlists, hinverse⟩ := hinv
  have hcne : cids ≠ [] := by
    intro hc
    rw [hc] at hmap
    simp at hmap
    exact hne hmap
  have hsidnone : mapGet s2c sid = none := (mapHas_eq_false_iff s2c sid).1 hsid
  refine ⟨?_, ?_, ?_⟩
  · rw [mapKeys_mapSet_of_not_has s2c sid cids hsid]
    apply List.Nodup.append hk (List.nodup_singleton _)
    intro x hx hx2
    simp only [List.mem_singleton] at hx2
    subst hx2
    have := (mapHas_iff_mem_keys s2c x).2 hx
    rw [hsid] at this
    exact absurd this (by simp)
  · intro s l hl
    rw [mapGet_mapSet] at hl
    by_cases hs : s = sid
    · rw [if_pos hs] at hl
      have : cids = l := Option.some.inj hl
      subst this
      exact ⟨hcne, hnd⟩
    · rw [if_neg hs] at hl
      exact hlists s l hl
  · intro c s
    rw [mapGet_assignChargers]
    by_cases hc : c ∈ cids
    · rw [if_pos hc]
      constructor
      · intro hs
        have : sid = s := Option.some.inj hs
        subst this
        exact ⟨cids, by rw [mapGet_mapSet, if_pos rfl], hc⟩
      · rintro ⟨l, hl, hcl⟩
        rw [mapGet_mapSet] at hl
        by_cases hs : s = sid
        · rw [hs]
        · rw [if_neg hs] at hl
          have hold := (hinverse c s).2 ⟨l, hl, hcl⟩
          have hnone := (mapHas_eq_false_iff c2s c).1 (hfresh c hc)
          rw [hnone] at hold
          exact absurd hold (by simp)
    · rw [if_neg hc]
      constructor
      · intro hs
        obtain ⟨l, hl, hcl⟩ := (hinverse c s).1 hs
        have hne2 : s ≠ sid := by
          intro he
          rw [he, hsidnone] at hl
          exact absurd hl (by simp)
        exact ⟨l, by rw [mapGet_mapSet, if_neg hne2]; exact hl, hcl⟩
      · rintro ⟨l, hl, hcl⟩
        rw [mapGet_mapSet] at hl
        by_cases hs : s = sid
        · rw [if_pos hs] at hl
          have : cids = l := Option.some.inj hl
          subst this
          exact absurd hcl hc
        · rw [if_neg hs] at hl
          exact (hinverse c s).2 ⟨l, hl, hcl⟩

theorem stationsInv_empty : StationsInv [] [] := by
  refine ⟨List.nodup_nil, ?_, ?_⟩
  · intro s l h
    simp [mapGet] at h
  · intro c s
    simp [mapGet]

theorem stationsFold_inv (S : List (List Char)) :
    ∀ (s2c a : GoMap (List Nat)) (c2s b : GoMap Nat), StationsInv s2c c2s →
      stationsFold S s2c c2s = some (a, b) → StationsInv a b := by
  induction S with
  | nil =>
      intro s2c a c2s b hinv h
      simp only [stationsFold, Option.some.injEq, Prod.mk.injEq] at h
      rw [← h.1, ← h.2]
      exact hinv
  | cons line rest ih =>
      intro s2c a c2s b hinv h
      unfold stationsFold at h
      cases hp : parseStationsLine line s2c c2s with
      | none => simp [hp] at h
      | some xy =>
          obtain ⟨x, y⟩ := xy
          simp only [hp] at h
          exact ih x a y b (stationsInv_step line s2c x c2s y hinv hp) h

theorem takeWhile_ne_append {α : Type} [DecidableEq α] (x : α) (S R : List α)
    (h : ∀ y ∈ S, y ≠ x) :
    (S ++ x :: R).takeWhile (fun l => l ≠ x) = S ∧
    (S ++ x :: R).dropWhile (fun l => l ≠ x) = x :: R := by
  induction S with
  | nil => simp [List.takeWhile, List.dropWhile]
  | cons a S ih =>
      have ha : a ≠ x := h a (List.mem_cons_self _ _)
      have ih2 := ih (fun y hy => h y (List.mem_cons_of_mem _ hy))
      have hd : decide (a ≠ x) = true := by simpa using ha
      rw [List.cons_append, List.takeWhile_cons, List.dropWhile_cons]
      simp only [hd, if_true]
      exact ⟨congrArg _ ih2.1, ih2.2⟩

theorem takeWhile_ne_all {α : Type} [DecidableEq α] (x : α) (S : List α)
    (h : ∀ y ∈ S, y ≠ x) :
    S.takeWhile (fun l => l ≠ x) = S ∧ S.dropWhile (fun l => l ≠ x) = [] := by
  induction S with
  | nil => simp
  | cons a S ih =>
      have ha : a ≠ x := h a (List.mem_cons_self _ _)
      have ih2 := ih (fun y hy => h y (List.mem_cons_of_mem _ hy))
      have hd : decide (a ≠ x) = true := by simpa using ha
      rw [List.takeWhile_cons, List.dropWhile_cons]
      simp only [hd, if_true]
      exact ⟨congrArg _ ih2.1, ih2.2⟩

/-- What a successful `parseInput` says about its input: no scanner error, at least one
station, and the trimmed lines are the stations header, the station section and, when
the reports header is present, that header and the report section. -/
theorem parseInput_shape (lines : List (List Char)) (scanErr : Bool) (p : ParsedInput)
    (h : parseInput lines scanErr = some p) :
    scanErr = false ∧ p.stationToChargers ≠ [] ∧
    HeaderFree (stationSection lines) ∧ HeaderFree (reportSection lines) ∧
    stationsFold (stationSection lines) [] [] = some (p.stationToChargers, p.chargerToStation) ∧
    reportsFold (reportSection lines) p.chargerToStation [] = some p.chargerReports ∧
    ((trimmedLines lines = stationsHeader :: stationSection lines ∧ reportSection lines = []) ∨
      trimmedLines lines
        = stationsHeader :: stationSection lines ++ reportsHeader :: reportSection lines) := by
  unfold parseInput at h
  rw [scanLoop_eq_processLines] at h
  cases hw : processLines (trimmedLines lines) parseInit with
  | none => simp [hw] at h
  | some w =>
      simp only [hw] at h
      by_cases he : scanErr = true
      · simp [he] at h
      · have he2 : scanErr = false := by simpa using he
        simp only [he2, Bool.false_eq_true, if_false] at h
        by_cases hl : w.stationToChargers.length = 0
        · simp [hl] at h
        · simp only [hl, if_false, Option.some.injEq] at h
          subst h
          have hne : w.stationToChargers ≠ [] := by
            intro h0
            rw [h0] at hl
            exact hl rfl
          rcases processLines_init _ w hw with ⟨_, hinit⟩ | ⟨S, R, hS, hR, hsf, hrf, hshape⟩
          · rw [hinit] at hne
            exact absurd rfl hne
          · rcases hshape with ⟨e1, e2, _⟩ | ⟨e1, _⟩
            · have hall : ∀ y ∈ stationsHeader :: S, y ≠ reportsHeader := by
                intro y hy
                rcases List.mem_cons.1 hy with hy | hy
                · rw [hy]; exact stationsHeader_ne_reportsHeader
                · exact (hS y hy).2
              have hss : stationSection lines = S := by
                unfold stationSection
                rw [e1, List.drop_one, List.tail_cons]
                exact (takeWhile_ne_all reportsHeader S (fun y hy => (hS y hy).2)).1
              have hrs : reportSection lines = [] := by
                unfold reportSection
                rw [e1, (takeWhile_ne_all reportsHeader _ hall).2]
                rfl
              subst e2
              rw [hss, hrs]
              exact ⟨he2, hne, hS, hR, hsf, hrf, Or.inl ⟨e1, rfl⟩⟩
            · have hss : stationSection lines = S := by
                unfold stationSection
                rw [e1, List.cons_append, List.drop_one, List.tail_cons]
                exact (takeWhile_ne_append reportsHeader S R (fun y hy => (hS y hy).2)).1
              have hrs : reportSection lines = R := by
                unfold reportSection
                rw [e1, (takeWhile_ne_append reportsHeader (stationsHeader :: S) R ?_).2]
                · rfl
                · intro y hy
                  rcases List.mem_cons.1 hy with hy | hy
                  · rw [hy]; exact stationsHeader_ne_reportsHeader
                  · exact (hS y hy).2
              rw [hss, hrs]
              exact ⟨he2, hne, hS, hR, hsf, hrf, Or.inr e1⟩

theorem parseReportLine_lineReport (line : List Char) (c2s : GoMap Nat)
    (reps reps2 : GoMap (List Report)) (h : parseReportLine line c2s reps = some reps2) :
    ∃ cid r, lineReport line = some (cid, r) ∧ mapHas c2s cid = true ∧ r.start ≤ r.end_ ∧
      reps2 = mapSet reps cid (reportsOf reps cid ++ [r]) := by
  obtain ⟨p0, p1, p2, p3, hf⟩ := parseReportLine_fields line c2s reps reps2 h
  rw [parseReportLine_of_fields line c2s reps p0 p1 p2 p3 hf] at h
  obtain ⟨cid, hcid, h⟩ := Option.bind_eq_some.1 h
  obtain ⟨start, hstart, h⟩ := Option.bind_eq_some.1 h
  obtain ⟨end_, hend, h⟩ := Option.bind_eq_some.1 h
  by_cases hlt : end_ < start
  · rw [if_pos hlt] at h
    exact absurd h (by simp)
  · rw [if_neg hlt] at h
    obtain ⟨up, hup, h⟩ := Option.bind_eq_some.1 h
    by_cases hhas : mapHas c2s cid = true
    · rw [if_pos hhas] at h
      refine ⟨cid, ⟨start, end_, up⟩, ?_, hhas, Nat.le_of_not_lt hlt, (Option.some.inj h).symm⟩
      unfold lineReport
      rw [hf]
      simp only [hcid, hstart, hend, hup]
    · rw [if_neg hhas] at h
      exact absurd h (by simp)

theorem reportsOf_mapSet (m : GoMap (List Report)) (k : Nat) (v : List Report) (c : Nat) :
    reportsOf (mapSet m k v) c = if c = k then v else reportsOf m c := by
  unfold reportsOf
  rw [mapGet_mapSet]
  by_cases h : c = k <;> simp [h]

theorem reportsFor_cons (c : Nat) (line : List Char) (R : List (List Char)) (cid : Nat)
    (r : Report) (h : lineReport line = some (cid, r)) :
    reportsFor c (line :: R) = (if c = cid then [r] else []) ++ reportsFor c R := by
  unfold reportsFor
  rw [List.filterMap_cons, h]
  simp only [List.filter_cons]
  by_cases hc : c = cid
  · subst hc
    simp
  · have : (cid == c) = false := by simpa using fun e : cid = c => hc e.symm
    simp [this, hc]

/-- What the report table holds after the lines of a reports section were parsed. -/
theorem reportsFold_spec (R : List (List Char)) (c2s : GoMap Nat) :
    ∀ (reps0 reps : GoMap (List Report)), reportsFold R c2s reps0 = some reps →
      (∀ line ∈ R, ∃ cid r, lineReport line = some (cid, r) ∧ mapHas c2s cid = true ∧
        r.start ≤ r.end_) ∧
      (∀ c, reportsOf reps c = reportsOf reps0 c ++ reportsFor c R) ∧
      (∀ c ∈ mapKeys reps, c ∈ mapKeys reps0 ∨ mapHas c2s c = true) := by
  induction R with
  | nil =>
      intro reps0 reps h
      simp only [reportsFold, Option.some.injEq] at h
      subst h
      refine ⟨by simp, ?_, fun c hc => Or.inl hc⟩
      intro c
      simp [reportsFor]
  | cons line rest ih =>
      intro reps0 reps h
      unfold reportsFold at h
      cases hp : parseReportLine line c2s reps0 with
      | none => simp [hp] at h
      | some reps1 =>
          simp only [hp] at h
          obtain ⟨cid, r, hlr, hhas, hle, hset⟩ := parseReportLine_lineReport line c2s reps0 reps1 hp
          obtain ⟨h1, h2, h3⟩ := ih reps1 reps h
          refine ⟨?_, ?_, ?_⟩
          · intro x hx
            rcases List.mem_cons.1 hx with hx | hx
            · rw [hx]; exact ⟨cid, r, hlr, hhas, hle⟩
            · exact h1 x hx
          · intro c
            rw [h2 c, hset, reportsOf_mapSet, reportsFor_cons c line rest cid r hlr]
            by_cases hc : c = cid
            · subst hc
              simp
            · simp [hc]
          · intro c hc
            rcases h3 c hc with hk | hk
            · rw [hset, ← mapHas_iff_mem_keys, mapHas_mapSet] at hk
              simp only [Bool.or_eq_true, decide_eq_true_eq] at hk
              rcases hk with hk | hk
              · rw [hk]; exact Or.inr hhas
              · exact Or.inl ((mapHas_iff_mem_keys _ _).1 hk)
            · exact Or.inr hk

/-! ## Consequences for the parsed input and the whole run -/

theorem chargersOf_of_mapGet (s2c : GoMap (List Nat)) (s : Nat) (cids : List Nat)
    (h : mapGet s2c s = some cids) : chargersOf s2c s = cids := by
  unfold chargersOf
  rw [h]
  rfl

theorem mem_chargersOf_iff (s2c : GoMap (List Nat)) (s c : Nat) :
    c ∈ chargersOf s2c s ↔ ∃ cids, mapGet s2c s = some cids ∧ c ∈ cids := by
  unfold chargersOf
  cases h : mapGet s2c s with
  | none => simp
  | some v => simp

theorem computeAll_some_pooled (s2c : GoMap (List Nat)) (c2s : GoMap Nat)
    (reps : GoMap (List Report)) (res : List StationResult)
    (h : computeAllStationUptimes s2c c2s reps = some res) :
    ∀ s ∈ mapKeys s2c, pooledReports (chargersOf s2c s) reps ≠ [] := by
  intro s hs hnil
  have hnone : computeAllStationUptimes s2c c2s reps = none := by
    unfold computeAllStationUptimes
    rw [resultsLoop_eq_none]
    exact ⟨s, (sortStationIDs_perm _).mem_iff.2 hs, computeStationUptime_nil s _ reps hnil⟩
  rw [hnone] at h
  exact absurd h (by simp)

theorem exists_line_of_reportsFor_ne_nil (c : Nat) (R : List (List Char))
    (h : reportsFor c R ≠ []) : ∃ line ∈ R, ∃ r, lineReport line = some (c, r) := by
  obtain ⟨r, hr⟩ := List.exists_mem_of_ne_nil _ h
  unfold reportsFor at hr
  obtain ⟨x, hx, _⟩ := List.mem_map.1 hr
  obtain ⟨hx1, hx2⟩ := List.mem_filter.1 hx
  obtain ⟨line, hline, hlr⟩ := List.mem_filterMap.1 hx1
  have hc : x.1 = c := by simpa using hx2
  refine ⟨line, hline, x.2, ?_⟩
  rw [hlr, ← hc]

theorem main_eq_some (lines : List (List Char)) (scanErr : Bool) (res : List StationResult)
    (h : main lines scanErr = some res) :
    ∃ p, parseInput lines scanErr = some p ∧
      computeAllStationUptimes p.stationToChargers p.chargerToStation p.chargerReports
        = some res := by
  unfold main at h
  cases hp : parseInput lines scanErr with
  | none => simp [hp] at h
  | some p =>
      simp only [hp] at h
      exact ⟨p, rfl, h⟩

theorem main_reported (lines : List (List Char)) (scanErr : Bool) (res : List StationResult)
    (h : main lines scanErr = some res) :
    reportsHeader ∈ trimmedLines lines ∧
    ∃ p, parseInput lines scanErr = some p ∧
      ∀ s ∈ mapKeys p.stationToChargers, ∃ line ∈ reportSection lines, ∃ cid r,
        lineReport line = some (cid, r) ∧ cid ∈ chargersOf p.stationToChargers s := by
  obtain ⟨p, hp, hall⟩ := main_eq_some lines scanErr res h
  obtain ⟨_, hne, _, _, _, hrf, hshape⟩ := parseInput_shape lines scanErr p hp
  obtain ⟨_, h2, _⟩ := reportsFold_spec _ _ [] _ hrf
  have hstation : ∀ s ∈ mapKeys p.stationToChargers, ∃ line ∈ reportSection lines, ∃ cid r,
      lineReport line = some (cid, r) ∧ cid ∈ chargersOf p.stationToChargers s := by
    intro s hs
    have hpool := computeAll_some_pooled _ _ _ res hall s hs
    obtain ⟨x, hx⟩ := List.exists_mem_of_ne_nil _ hpool
    obtain ⟨cid, hcid, hmem⟩ := List.mem_flatMap.1 hx
    have hfor : reportsFor cid (reportSection lines) ≠ [] := by
      have := h2 cid
      simp only [reportsOf, mapGet, List.lookup, Option.getD_none, List.nil_append] at this
      intro hnil
      have hmem2 : x ∈ reportsOf p.chargerReports cid := hmem
      unfold reportsOf mapGet at hmem2
      rw [this, hnil] at hmem2
      simp at hmem2
    obtain ⟨line, hline, r, hlr⟩ := exists_line_of_reportsFor_ne_nil cid _ hfor
    exact ⟨line, hline, cid, r, hlr, hcid⟩
  refine ⟨?_, p, hp, hstation⟩
  have hkeys : mapKeys p.stationToChargers ≠ [] := by
    intro hk
    unfold mapKeys at hk
    exact hne (List.map_eq_nil_iff.1 hk)
  obtain ⟨s, hs⟩ := List.exists_mem_of_ne_nil _ hkeys
  obtain ⟨line, hline, _⟩ := hstation s hs
  rcases hshape with ⟨_, hnil⟩ | hT
  · rw [hnil] at hline
    simp at hline
  · rw [hT]
    simp

/-! ## Headers and blank lines -/

theorem headerFree_count (S : List (List Char)) (h : HeaderFree S) :
    S.count stationsHeader = 0 ∧ S.count reportsHeader = 0 := by
  constructor
  · rw [List.count_eq_zero]
    intro hm
    exact (h _ hm).1 rfl
  · rw [List.count_eq_zero]
    intro hm
    exact (h _ hm).2 rfl

/-- The headers of an accepted input: the first trimmed line is the stations header, which
occurs once; the reports header occurs at most once. -/
theorem parseInput_headers (lines : List (List Char)) (scanErr : Bool) (p : ParsedInput)
    (h : parseInput lines scanErr = some p) :
    (∃ tl, trimmedLines lines = stationsHeader :: tl) ∧
    (trimmedLines lines).count stationsHeader = 1 ∧
    (trimmedLines lines).count reportsHeader ≤ 1 := by
  obtain ⟨_, _, hS, hR, _, _, hshape⟩ := parseInput_shape lines scanErr p h
  obtain ⟨cS1, cS2⟩ := headerFree_count _ hS
  obtain ⟨cR1, cR2⟩ := headerFree_count _ hR
  have hne : (reportsHeader == stationsHeader) = false := by decide
  have hne2 : (stationsHeader == reportsHeader) = false := by decide
  rcases hshape with ⟨hT, _⟩ | hT
  · rw [hT]
    refine ⟨⟨_, rfl⟩, ?_, ?_⟩
    · rw [List.count_cons, cS1]; simp
    · rw [List.count_cons, cS2, hne2]; simp
  · rw [hT]
    refine ⟨⟨_, rfl⟩, ?_, ?_⟩
    · rw [List.count_append, List.count_cons, List.count_cons, cS1, cR1, hne]; simp
    · rw [List.count_append, List.count_cons, List.count_cons, cS2, cR2, hne2]; simp

theorem dropWhile_eq_nil_of_all {α : Type} (q : α → Bool) :
    ∀ l : List α, (∀ x ∈ l.dropWhile q, q x = true) → l.dropWhile q = [] := by
  intro l
  induction l with
  | nil => intro _; rfl
  | cons a l ih =>
      intro h
      by_cases ha : q a = true
      · rw [List.dropWhile_cons, if_pos ha] at h ⊢
        exact ih h
      · rw [List.dropWhile_cons, if_neg ha] at h
        exact absurd (h a (List.mem_cons_self _ _)) ha

theorem trimSpace_eq_nil_iff (l : List Char) : TrimSpace l = [] ↔ isBlank l = true := by
  unfold TrimSpace isBlank
  rw [List.reverse_eq_nil_iff, List.dropWhile_eq_nil_iff, List.all_eq_true]
  constructor
  · intro h
    have hd : l.dropWhile isSpace = [] :=
      dropWhile_eq_nil_of_all isSpace l (fun x hx => h x (List.mem_reverse.2 hx))
    exact List.dropWhile_eq_nil_iff.1 hd
  · intro h x hx
    have : l.dropWhile isSpace = [] := List.dropWhile_eq_nil_iff.2 h
    rw [this] at hx
    simp at hx

theorem trimmedLines_eq_filter (lines : List (List Char)) :
    trimmedLines lines = (lines.filter (fun l => !isBlank l)).map TrimSpace := by
  unfold trimmedLines
  induction lines with
  | nil => rfl
  | cons l rest ih =>
      rw [List.map_cons, List.filter_cons, List.filter_cons]
      by_cases hb : isBlank l = true
      · have ht : TrimSpace l = [] := (trimSpace_eq_nil_iff l).2 hb
        simp only [ht, hb, ne_eq, not_true_eq_false, decide_False, Bool.false_eq_true,
          if_false, Bool.not_true]
        exact ih
      · have ht : ¬ TrimSpace l = [] := fun h => hb ((trimSpace_eq_nil_iff l).1 h)
        have hb2 : isBlank l = false := by simpa using hb
        simp only [ht, hb2, ne_eq, not_false_eq_true, decide_True, if_true, Bool.not_false,
          List.map_cons]
        rw [ih]

/-! ## The scanner's token limit -/

theorem byteLength_replicate (n : Nat) (c : Char) :
    byteLength (List.replicate n c) = n * c.utf8Size := by
  unfold byteLength
  induction n with
  | zero => simp
  | succ k ih =>
      rw [List.replicate_succ, List.map_cons, List.sum_cons, ih]
      ring

theorem isBlank_replicate_space (n : Nat) : isBlank (List.replicate n (Char.ofNat 32)) = true := by
  unfold isBlank
  rw [List.all_eq_true]
  intro x hx
  rw [List.eq_of_mem_replicate hx]
  decide

theorem parseInput_scanErr (lines : List (List Char)) : parseInput lines true = none := by
  unfold parseInput
  cases scanLoop lines parseInit <;> simp

theorem scanFile_of_short (raw : List (List Char))
    (h : ∀ l ∈ raw, byteLength l < maxScanTokenSize) :
    scanFile raw = (raw.map dropCR, false) := by
  induction raw with
  | nil => rfl
  | cons l rest ih =>
      have hl := h l (List.mem_cons_self _ _)
      have ih2 := ih (fun x hx => h x (List.mem_cons_of_mem _ hx))
      unfold scanFile
      rw [if_neg (by omega), ih2]
      rfl

theorem scanFile_too_long (raw : List (List Char))
    (h : ∃ l ∈ raw, maxScanTokenSize ≤ byteLength l) : (scanFile raw).2 = true := by
  induction raw with
  | nil =>
      obtain ⟨l, hl, _⟩ := h
      simp at hl
  | cons l rest ih =>
      unfold scanFile
      by_cases hlong : maxScanTokenSize ≤ byteLength l
      · rw [if_pos hlong]
      · rw [if_neg hlong]
        obtain ⟨x, hx, hxl⟩ := h
        rcases List.mem_cons.1 hx with hx | hx
        · rw [hx] at hxl
          exact absurd hxl hlong
        · exact ih ⟨x, hx, hxl⟩

/-- A line of `maxScanTokenSize` bytes or more makes `parseInput` fail. -/
theorem parseInputFile_too_long (raw : List (List Char))
    (h : ∃ l ∈ raw, maxScanTokenSize ≤ byteLength l) : parseInputFile raw = none := by
  unfold parseInputFile
  rw [scanFile_too_long raw h]
  exact parseInput_scanErr _


theorem dropWhile_append_of_exists {α : Type} (q : α → Bool) (r : List α) :
    ∀ l : List α, (∃ x ∈ l, q x = false) → (l ++ r).dropWhile q = l.dropWhile q ++ r := by
  intro l
  induction l with
  | nil =>
      rintro ⟨x, hx, _⟩
      simp at hx
  | cons a l ih =>
      rintro ⟨x, hx, hq⟩
      rw [List.cons_append, List.dropWhile_cons, List.dropWhile_cons]
      by_cases ha : q a = true
      · rw [if_pos ha, if_pos ha]
        rcases List.mem_cons.1 hx with hx | hx
        · rw [hx, ha] at hq
          exact absurd hq (by simp)
        · exact ih ⟨x, hx, hq⟩
      · rw [if_neg ha, if_neg ha]
        rfl

theorem trimSpace_append_space (init : List Char) (c : Char) (hc : isSpace c = true) :
    TrimSpace (init ++ [c]) = TrimSpace init := by
  by_cases hall : ∀ x ∈ init, isSpace x = true
  · have h1 : TrimSpace init = [] := by
      rw [trimSpace_eq_nil_iff]
      unfold isBlank
      rw [List.all_eq_true]
      exact hall
    have h2 : TrimSpace (init ++ [c]) = [] := by
      rw [trimSpace_eq_nil_iff]
      unfold isBlank
      rw [List.all_eq_true]
      intro x hx
      rcases List.mem_append.1 hx with hx | hx
      · exact hall x hx
      · rw [List.mem_singleton] at hx
        rw [hx]; exact hc
    rw [h1, h2]
  · have hex : ∃ x ∈ init, isSpace x = false := by
      by_contra hne
      apply hall
      intro x hx
      by_contra hx2
      exact hne ⟨x, hx, by simpa using hx2⟩
    unfold TrimSpace
    rw [dropWhile_append_of_exists isSpace [c] init hex, List.reverse_append,
      List.reverse_singleton, List.singleton_append, List.dropWhile_cons, if_pos hc]

theorem trimSpace_dropCR (l : List Char) : TrimSpace (dropCR l) = TrimSpace l := by
  unfold dropCR
  by_cases h : l.getLast? = some (Char.ofNat 13)
  · rw [if_pos h]
    have hl : l.dropLast ++ [Char.ofNat 13] = l := List.dropLast_append_getLast? _ h
    have := trimSpace_append_space l.dropLast (Char.ofNat 13) (by decide)
    rw [hl] at this
    exact this.symm
  · rw [if_neg h]

theorem trimmedLines_map_dropCR (L : List (List Char)) :
    trimmedLines (L.map dropCR) = trimmedLines L := by
  unfold trimmedLines
  rw [List.map_map]
  congr 1
  apply List.map_congr_left
  intro l _
  exact trimSpace_dropCR l

/-- The outcome of `parseInput` depends only on the trimmed non-blank lines and on the
scanner's error flag. -/
theorem parseInput_congr_trimmed (A B : List (List Char)) (scanErr : Bool)
    (h : trimmedLines A = trimmedLines B) : parseInput A scanErr = parseInput B scanErr := by
  unfold parseInput
  rw [scanLoop_eq_processLines, scanLoop_eq_processLines, h]

theorem filter_append_blank (L : List (List Char)) (b : List Char) (hb : isBlank b = true) :
    (L ++ [b]).filter (fun l => !isBlank l) = L.filter (fun l => !isBlank l) := by
  rw [List.filter_append]
  simp [hb]

/-! ## Claims -/

/-- C1: when every pooled report of the station is a `uint64` interval with
`start ≤ end`, `lo` is the smallest start and `hi` the largest end over the pooled
reports (so there is at least one report), and `lo < hi`, then `computeStationUptime`
returns `floor (100 * |U| / (hi - lo))`, where `U` is the set of instants `t` with
`start ≤ t < end` for some up report of the station. -/
theorem computeStationUptime_eq_floor_union (sid : Nat) (chargers : List Nat)
    (m : GoMap (List Report)) (lo hi : Nat)
    (hvalid : ∀ r ∈ pooledReports chargers m, r.InRange ∧ r.start ≤ r.end_)
    (hw : IsWindow (pooledReports chargers m) lo hi) (hpos : lo < hi) :
    computeStationUptime sid chargers m
      = some (100 * Set.ncard {t : Nat | ∃ r ∈ pooledReports chargers m,
          r.up = true ∧ r.start ≤ t ∧ t < r.end_} / (hi - lo)) := by
  rw [computeStationUptime_exact sid chargers m lo hi (fun r hr => (hvalid r hr).2)
    (fun r hr => (hvalid r hr).1) hw hpos]
  have hset : {t : Nat | ∃ r ∈ pooledReports chargers m,
      r.up = true ∧ r.start ≤ t ∧ t < r.end_}
      = ↑(covered ((pooledReports chargers m).filter (fun r => r.up))) := by
    ext t
    simp only [Set.mem_setOf_eq, Finset.mem_coe, mem_covered, List.mem_filter, and_assoc]
  rw [hset, Set.ncard_coe_Finset]

/-- C1 at the touching intervals `[0,100]` and `[100,200]` of two chargers, with a down
report inside the window: the hypotheses hold and the result is 100. -/
theorem computeStationUptime_eq_floor_union_witness :
    computeStationUptime 0 [1, 2]
        [(1, [⟨0, 100, true⟩]), (2, [⟨100, 200, true⟩, ⟨50, 120, false⟩])]
      = some (100 * Set.ncard {t : Nat | ∃ r ∈ pooledReports [1, 2]
          [(1, [⟨0, 100, true⟩]), (2, [⟨100, 200, true⟩, ⟨50, 120, false⟩])],
          r.up = true ∧ r.start ≤ t ∧ t < r.end_} / (200 - 0))
    ∧ computeStationUptime 0 [1, 2]
        [(1, [⟨0, 100, true⟩]), (2, [⟨100, 200, true⟩, ⟨50, 120, false⟩])] = some 100 :=
  ⟨computeStationUptime_eq_floor_union 0 [1, 2]
      [(1, [⟨0, 100, true⟩]), (2, [⟨100, 200, true⟩, ⟨50, 120, false⟩])] 0 200
      (by decide) (by decide) (by decide),
    by decide⟩

/-- C2: whenever `computeStationUptime` does not fail its result lies in `[0, 100]`, and
every `StationResult` returned by `computeAllStationUptimes` has `UptimePct` in `[0, 100]`. -/
theorem uptime_within_zero_hundred (sid : Nat) (chargers : List Nat)
    (m : GoMap (List Report)) (u : Nat) (s2c : GoMap (List Nat)) (c2s : GoMap Nat)
    (res : List StationResult) :
    (computeStationUptime sid chargers m = some u → 0 ≤ u ∧ u ≤ 100) ∧
    (computeAllStationUptimes s2c c2s m = some res →
      ∀ e ∈ res, 0 ≤ e.UptimePct ∧ e.UptimePct ≤ 100) := by
  refine ⟨fun h => ⟨Nat.zero_le _, computeStationUptime_le_hundred sid chargers m u h⟩, ?_⟩
  intro h e he
  obtain ⟨tl, h1, _, h3⟩ := resultsLoop_some s2c m _ _ _ h
  rw [h1, List.nil_append] at he
  exact ⟨Nat.zero_le _, computeStationUptime_le_hundred _ _ m _ (h3 e he)⟩

/-- C2 on a fleet of two stations: station 2 has uptime 33, and the fleet result holds
the entry `(2, 33)`. -/
theorem uptime_within_zero_hundred_witness :
    (computeStationUptime 2 [20] [(10, [⟨5, 9, true⟩]), (20, [⟨0, 1, true⟩, ⟨1, 3, false⟩])]
        = some 33 ∧ 0 ≤ 33 ∧ 33 ≤ 100) ∧
    (computeAllStationUptimes [(2, [20]), (1, [10])] [(10, 1), (20, 2)]
        [(10, [⟨5, 9, true⟩]), (20, [⟨0, 1, true⟩, ⟨1, 3, false⟩])]
        = some [StationResult.mk 1 100, StationResult.mk 2 33] ∧
      0 ≤ (StationResult.mk 2 33).UptimePct ∧ (StationResult.mk 2 33).UptimePct ≤ 100) :=
  ⟨⟨by decide,
    (uptime_within_zero_hundred 2 [20]
      [(10, [⟨5, 9, true⟩]), (20, [⟨0, 1, true⟩, ⟨1, 3, false⟩])] 33 [] [] []).1 (by decide)⟩,
   ⟨by decide,
    (uptime_within_zero_hundred 0 []
      [(10, [⟨5, 9, true⟩]), (20, [⟨0, 1, true⟩, ⟨1, 3, false⟩])] 0
      [(2, [20]), (1, [10])] [(10, 1), (20, 2)]
      [StationResult.mk 1 100, StationResult.mk 2 33]).2 (by decide)
      (StationResult.mk 2 33) (by decide)⟩⟩

/-- C3: when `computeAllStationUptimes` succeeds on a map (distinct keys, in any iteration
order), the result has exactly one entry per declared station id, its station ids are
strictly ascending, each `UptimePct` is `computeStationUptime` of that station's charger
list, and every other iteration order of the same map yields the same result. -/
theorem computeAllStationUptimes_sorted_complete (s2c : GoMap (List Nat)) (c2s : GoMap Nat)
    (m : GoMap (List Report)) (res : List StationResult)
    (hkeys : (mapKeys s2c).Nodup)
    (h : computeAllStationUptimes s2c c2s m = some res) :
    (res.map StationResult.StationID).Perm (mapKeys s2c) ∧
    (res.map StationResult.StationID).Sorted (fun a b => a < b) ∧
    (∀ e ∈ res, computeStationUptime e.StationID (chargersOf s2c e.StationID) m
        = some e.UptimePct) ∧
    (∀ (s2c2 : GoMap (List Nat)) (c2s2 : GoMap Nat), s2c2.Perm s2c →
        computeAllStationUptimes s2c2 c2s2 m = some res) := by
  obtain ⟨tl, h1, h2, h3⟩ := resultsLoop_some s2c m _ _ _ h
  rw [List.nil_append] at h1
  subst h1
  refine ⟨?_, ?_, h3, ?_⟩
  · rw [h2]; exact sortStationIDs_perm _
  · rw [h2]; exact sortStationIDs_strict hkeys
  · intro s2c2 c2s2 hp
    unfold computeAllStationUptimes at h ⊢
    have hk : (mapKeys s2c2).Perm (mapKeys s2c) := hp.map Prod.fst
    rw [sortStationIDs_congr hk, ← h]
    apply resultsLoop_congr
    intro sid
    unfold chargersOf
    rw [mapGet_perm hp.symm hkeys sid]

/-- C3 on a map that lists station 2 before station 1: the result lists station 1 first,
the entry of station 2 carries its uptime, and the map listing station 1 first gives the
same result. -/
theorem computeAllStationUptimes_sorted_complete_witness :
    (mapKeys [(2, [20]), (1, [10])]).Nodup ∧
    computeAllStationUptimes [(2, [20]), (1, [10])] [(10, 1), (20, 2)]
      [(10, [⟨5, 9, true⟩]), (20, [⟨0, 1, true⟩, ⟨1, 3, false⟩])]
      = some [StationResult.mk 1 100, StationResult.mk 2 33] ∧
    ([StationResult.mk 1 100, StationResult.mk 2 33].map StationResult.StationID).Perm
      (mapKeys [(2, [20]), (1, [10])]) ∧
    ([StationResult.mk 1 100, StationResult.mk 2 33].map StationResult.StationID).Sorted
      (fun a b => a < b) ∧
    computeStationUptime 2 (chargersOf [(2, [20]), (1, [10])] 2)
      [(10, [⟨5, 9, true⟩]), (20, [⟨0, 1, true⟩, ⟨1, 3, false⟩])] = some 33 ∧
    computeAllStationUptimes [(1, [10]), (2, [20])] []
      [(10, [⟨5, 9, true⟩]), (20, [⟨0, 1, true⟩, ⟨1, 3, false⟩])]
      = some [StationResult.mk 1 100, StationResult.mk 2 33] :=
  (fun h => ⟨by decide, by decide, h.1, h.2.1,
      h.2.2.1 (StationResult.mk 2 33) (by decide),
      h.2.2.2 [(1, [10]), (2, [20])] [] (List.Perm.swap _ _ _)⟩)
    (computeAllStationUptimes_sorted_complete [(2, [20]), (1, [10])] [(10, 1), (20, 2)]
      [(10, [⟨5, 9, true⟩]), (20, [⟨0, 1, true⟩, ⟨1, 3, false⟩])]
      [StationResult.mk 1 100, StationResult.mk 2 33] (by decide) (by decide))

/-- C4: for `a ≤ b ≤ c` with `a < c` (all `uint64`), a station with the single charger
`cid` whose reports are the up report `[a, b]` followed by the down report `[b, c]` has
uptime `floor (100 * (b - a) / (c - a))`. -/
theorem computeStationUptime_up_then_down (sid cid a b c : Nat) (m : GoMap (List Report))
    (hab : a ≤ b) (hbc : b ≤ c) (hac : a < c) (hc : c < u64Size)
    (hm : reportsOf m cid = [⟨a, b, true⟩, ⟨b, c, false⟩]) :
    computeStationUptime sid [cid] m = some (100 * (b - a) / (c - a)) := by
  have hw : IsWindow (pooledReports [cid] m) a c := by
    rw [pooledReports_singleton, hm]
    unfold IsWindow
    simp
    omega
  rw [computeStationUptime_window sid [cid] m a c hw, pooledReports_singleton, hm]
  have hsub : subU64 c a = c - a := subU64_of_le (by omega) hc
  have hsub2 : subU64 b a = b - a := subU64_of_le hab (by omega)
  have hsw : sweepTotal ⟨a, b, true⟩ [] = b - a := by
    unfold sweepTotal
    simp only [List.foldl_nil, hsub2]
    rw [addU64_of_lt (by omega), Nat.zero_add]
  have hba : b - a ≤ c - a := by omega
  have hpc := computePercentage_of_le hba (by omega)
  have hle := percentage_le_hundred hba
  have hsort : sortUpIntervals [(⟨a, b, true⟩ : Report)] = [⟨a, b, true⟩] := rfl
  have hfilter : List.filter (fun r => r.up) [(⟨a, b, true⟩ : Report), ⟨b, c, false⟩]
      = [⟨a, b, true⟩] := rfl
  rw [hfilter, hsort, hsub, if_neg (by omega), if_neg (by simp)]
  simp only [hsw, hpc]
  rw [if_neg (by omega)]

/-- C4 at `a = 0`, `b = 100`, `c = 200` (the input of `TestSimpleUptime`): the result is 50. -/
theorem computeStationUptime_up_then_down_witness :
    computeStationUptime 0 [1000] [(1000, [⟨0, 100, true⟩, ⟨100, 200, false⟩])] = some 50 :=
  computeStationUptime_up_then_down 0 1000 0 100 200
    [(1000, [⟨0, 100, true⟩, ⟨100, 200, false⟩])]
    (by decide) (by decide) (by decide) (by decide) rfl

/-- C5: for `totalUp ≤ totalWindow` with `totalWindow > 0` (in particular for all such
`uint64` values), `computePercentage` is the floor of `100 * totalUp / totalWindow` over
the unbounded naturals; `computePercentage totalUp 0 = 0`. -/
theorem computePercentage_exact (totalUp totalWindow : Nat) :
    (totalUp ≤ totalWindow → 0 < totalWindow →
      computePercentage totalUp totalWindow = 100 * totalUp / totalWindow) ∧
    computePercentage totalUp 0 = 0 :=
  ⟨fun h1 h2 => computePercentage_of_le h1 h2, by simp [computePercentage]⟩

/-- C5 at `totalUp = totalWindow = 2 ^ 64 - 1`, where `100 * totalUp` exceeds `2 ^ 64`:
the result is 100. -/
theorem computePercentage_exact_witness :
    2 ^ 64 ≤ 100 * (2 ^ 64 - 1) ∧ computePercentage (2 ^ 64 - 1) (2 ^ 64 - 1) = 100 :=
  ⟨by decide,
   ((computePercentage_exact (2 ^ 64 - 1) (2 ^ 64 - 1)).1 (by decide)
      (by decide)).trans (by decide)⟩

/-- C6: `computeStationUptime` fails exactly when the station's chargers have no report
at all, and `computeAllStationUptimes` fails (returning no result list) exactly when some
declared station has no report at all. -/
theorem failure_iff_station_without_reports (sid : Nat) (chargers : List Nat)
    (s2c : GoMap (List Nat)) (c2s : GoMap Nat) (m : GoMap (List Report)) :
    (computeStationUptime sid chargers m = none ↔ pooledReports chargers m = []) ∧
    (computeAllStationUptimes s2c c2s m = none ↔
      ∃ s ∈ mapKeys s2c, pooledReports (chargersOf s2c s) m = []) := by
  refine ⟨computeStationUptime_eq_none_iff sid chargers m, ?_⟩
  unfold computeAllStationUptimes
  rw [resultsLoop_eq_none]
  simp only [computeStationUptime_eq_none_iff, (sortStationIDs_perm (mapKeys s2c)).mem_iff]

/-- C6 on a fleet in which station 2 has reports and station 1 has none. -/
theorem failure_iff_station_without_reports_witness :
    computeStationUptime 1 [10] [(20, [⟨0, 1, true⟩])] = none ∧
    computeAllStationUptimes [(2, [20]), (1, [10])] [(10, 1), (20, 2)]
      [(20, [⟨0, 1, true⟩])] = none :=
  ⟨(failure_iff_station_without_reports 1 [10] [] [] [(20, [⟨0, 1, true⟩])]).1.2 (by decide),
   (failure_iff_station_without_reports 1 [10] [(2, [20]), (1, [10])] [(10, 1), (20, 2)]
      [(20, [⟨0, 1, true⟩])]).2.2 ⟨1, by decide, by decide⟩⟩

/-- C7: a station with at least one report has uptime 0 (a result, not a failure) when
the smallest start equals the largest end of its pooled reports, or when none of its
reports is marked up. -/
theorem computeStationUptime_zero (sid : Nat) (chargers : List Nat) (m : GoMap (List Report))
    (hne : pooledReports chargers m ≠ [])
    (h : (∃ T, IsWindow (pooledReports chargers m) T T) ∨
      (∀ r ∈ pooledReports chargers m, r.up = false)) :
    computeStationUptime sid chargers m = some 0 := by
  rcases h with ⟨T, hT⟩ | hdown
  · rw [computeStationUptime_window sid chargers m T T hT, subU64_self, if_pos rfl]
  · obtain ⟨lo, hi, hw⟩ := exists_isWindow hne
    rw [computeStationUptime_window sid chargers m lo hi hw]
    have : (pooledReports chargers m).filter (fun r => r.up) = [] := by
      rw [List.filter_eq_nil_iff]
      intro r hr
      simp [hdown r hr]
    rw [if_pos this]
    simp

/-- C7 on reports that all share `start = end = 7` and are marked up, and on a station
with only down reports. -/
theorem computeStationUptime_zero_witness :
    computeStationUptime 0 [1, 2] [(1, [⟨7, 7, true⟩]), (2, [⟨7, 7, true⟩, ⟨7, 7, false⟩])]
      = some 0 ∧
    computeStationUptime 0 [1] [(1, [⟨0, 10, false⟩, ⟨10, 30, false⟩])] = some 0 :=
  ⟨computeStationUptime_zero 0 [1, 2]
      [(1, [⟨7, 7, true⟩]), (2, [⟨7, 7, true⟩, ⟨7, 7, false⟩])] (by decide)
      (Or.inl ⟨7, by decide⟩),
   computeStationUptime_zero 0 [1] [(1, [⟨0, 10, false⟩, ⟨10, 30, false⟩])] (by decide)
      (Or.inr (by decide))⟩

/-- C8: `computeStationUptime` depends only on the multiset of pooled reports: two
(charger list, report table) pairs whose pooled reports are permutations of each other
have the same outcome (the same percentage, or both fail). -/
theorem computeStationUptime_pooled_multiset (sid sid2 : Nat) (chargers chargers2 : List Nat)
    (m m2 : GoMap (List Report))
    (hp : (pooledReports chargers m).Perm (pooledReports chargers2 m2)) :
    computeStationUptime sid chargers m = computeStationUptime sid2 chargers2 m2 :=
  computeStationUptime_perm sid sid2 chargers chargers2 m m2 hp

/-- C8 on two chargers with up `[50,100]` and up `[0,50]` against one charger holding both
reports: both give 100. -/
theorem computeStationUptime_pooled_multiset_witness :
    computeStationUptime 0 [2, 1] [(1, [⟨0, 50, true⟩]), (2, [⟨50, 100, true⟩])]
      = computeStationUptime 0 [1] [(1, [⟨0, 50, true⟩, ⟨50, 100, true⟩])] ∧
    computeStationUptime 0 [2, 1] [(1, [⟨0, 50, true⟩]), (2, [⟨50, 100, true⟩])] = some 100 :=
  ⟨computeStationUptime_pooled_multiset 0 0 [2, 1] [1]
      [(1, [⟨0, 50, true⟩]), (2, [⟨50, 100, true⟩])]
      [(1, [⟨0, 50, true⟩, ⟨50, 100, true⟩])] (List.Perm.swap _ _ _),
   by decide⟩

/-- C9: `parseReportLine` succeeds exactly when the line has four whitespace-delimited
fields, the first parses as a `uint32` charger id that is a key of `chargerToStation`, the
second and third parse as `uint64` values `start ≤ end`, and the fourth is `true` or
`false` up to letter case; on success the new table is the old one with the single
report `(start, end, up)` appended to that charger's list, every other key unchanged. -/
theorem parseReportLine_success_iff (line : List Char) (c2s : GoMap Nat)
    (reps reps2 : GoMap (List Report)) :
    (parseReportLine line c2s reps = some reps2 ↔
      ∃ p0 p1 p2 p3 cid start end_ up,
        fields line = [p0, p1, p2, p3] ∧
        parseUint32 p0 = some cid ∧ mapHas c2s cid = true ∧
        parseUint64 p1 = some start ∧ parseUint64 p2 = some end_ ∧ start ≤ end_ ∧
        ((p3.map Char.toLower = "true".toList ∧ up = true) ∨
          (p3.map Char.toLower = "false".toList ∧ up = false)) ∧
        reps2 = mapSet reps cid (reportsOf reps cid ++ [⟨start, end_, up⟩])) ∧
    (parseReportLine line c2s reps = some reps2 →
      ∃ cid start end_ up, start ≤ end_ ∧
        reportsOf reps2 cid = reportsOf reps cid ++ [⟨start, end_, up⟩] ∧
        ∀ c, c ≠ cid → mapGet reps2 c = mapGet reps c) := by
  have hfwd : parseReportLine line c2s reps = some reps2 →
      ∃ p0 p1 p2 p3 cid start end_ up,
        fields line = [p0, p1, p2, p3] ∧
        parseUint32 p0 = some cid ∧ mapHas c2s cid = true ∧
        parseUint64 p1 = some start ∧ parseUint64 p2 = some end_ ∧ start ≤ end_ ∧
        ((p3.map Char.toLower = "true".toList ∧ up = true) ∨
          (p3.map Char.toLower = "false".toList ∧ up = false)) ∧
        reps2 = mapSet reps cid (reportsOf reps cid ++ [⟨start, end_, up⟩]) := by
    intro h
    obtain ⟨p0, p1, p2, p3, hf⟩ := parseReportLine_fields line c2s reps reps2 h
    rw [parseReportLine_of_fields line c2s reps p0 p1 p2 p3 hf] at h
    obtain ⟨cid, hcid, h⟩ := Option.bind_eq_some.1 h
    obtain ⟨start, hstart, h⟩ := Option.bind_eq_some.1 h
    obtain ⟨end_, hend, h⟩ := Option.bind_eq_some.1 h
    by_cases hlt : end_ < start
    · rw [if_pos hlt] at h
      exact absurd h (by simp)
    · rw [if_neg hlt] at h
      obtain ⟨up, hup, h⟩ := Option.bind_eq_some.1 h
      by_cases hhas : mapHas c2s cid = true
      · rw [if_pos hhas] at h
        exact ⟨p0, p1, p2, p3, cid, start, end_, up, hf, hcid, hhas, hstart, hend,
          Nat.le_of_not_lt hlt, (parseBoolTF_eq_some_iff p3 up).1 hup,
          (Option.some.inj h).symm⟩
      · rw [if_neg hhas] at h
        exact absurd h (by simp)
  refine ⟨⟨hfwd, ?_⟩, ?_⟩
  · rintro ⟨p0, p1, p2, p3, cid, start, end_, up, hf, hcid, hhas, hstart, hend, hle, hup,
      hres⟩
    rw [parseReportLine_of_fields line c2s reps p0 p1 p2 p3 hf, hcid, hstart, hend,
      (parseBoolTF_eq_some_iff p3 up).2 hup]
    simp only [Option.some_bind]
    rw [if_neg (Nat.not_lt.2 hle), if_pos hhas, hres]
  · intro h
    obtain ⟨_, _, _, _, cid, start, end_, up, _, _, _, _, _, hle, _, hres⟩ := hfwd h
    subst hres
    refine ⟨cid, start, end_, up, hle, reportsOf_mapSet_self _ _ _, ?_⟩
    intro c hc
    rw [mapGet_mapSet, if_neg hc]

/-- C9 on the line `1000 0 100 TRUE` with charger 1000 declared and charger 1001 already
holding a report. -/
theorem parseReportLine_success_iff_witness :
    parseReportLine "1000 0 100 TRUE".toList [(1000, 0), (1001, 0)] [(1001, [⟨5, 6, false⟩])]
      = some [(1001, [⟨5, 6, false⟩]), (1000, [⟨0, 100, true⟩])] :=
  (parseReportLine_success_iff "1000 0 100 TRUE".toList [(1000, 0), (1001, 0)]
      [(1001, [⟨5, 6, false⟩])] [(1001, [⟨5, 6, false⟩]), (1000, [⟨0, 100, true⟩])]).1.2
    ⟨"1000".toList, "0".toList, "100".toList, "TRUE".toList, 1000, 0, 100, true,
      by decide, by decide, by decide, by decide, by decide, by decide,
      Or.inl ⟨by decide, rfl⟩, by decide⟩

/-- C10: `parseStationsLine` fails on a line with fewer than two fields (no charger
field), on a station id that is already a key of `stationToChargers`, and on a charger id
that is already a key of `chargerToStation` or occurs twice in the line; otherwise, when
every field parses as a `uint32`, it succeeds, `stationToChargers[sid]` becomes the
charger ids in the order of the line, and `chargerToStation` maps each of them to `sid`.
It succeeds in no other case. -/
theorem parseStationsLine_contract (line : List Char) (s2c s2c2 : GoMap (List Nat))
    (c2s c2s2 : GoMap Nat) :
    ((fields line).length < 2 → parseStationsLine line s2c c2s = none) ∧
    (∀ (p0 : List Char) (ps : List (List Char)) (sid : Nat) (cids : List Nat),
      fields line = p0 :: ps → parseUint32 p0 = some sid →
      ps.map parseUint32 = cids.map some →
      (mapHas s2c sid = true ∨ (∃ c ∈ cids, mapHas c2s c = true) ∨ ¬ cids.Nodup) →
      parseStationsLine line s2c c2s = none) ∧
    (∀ (p0 : List Char) (ps : List (List Char)) (sid : Nat) (cids : List Nat),
      fields line = p0 :: ps → ps ≠ [] → parseUint32 p0 = some sid →
      ps.map parseUint32 = cids.map some →
      mapHas s2c sid = false → (∀ c ∈ cids, mapHas c2s c = false) → cids.Nodup →
      parseStationsLine line s2c c2s = some (mapSet s2c sid cids, assignChargers sid cids c2s) ∧
      mapGet (mapSet s2c sid cids) sid = some cids ∧
      (∀ s, s ≠ sid → mapGet (mapSet s2c sid cids) s = mapGet s2c s) ∧
      (∀ c, mapGet (assignChargers sid cids c2s) c
        = if c ∈ cids then some sid else mapGet c2s c)) ∧
    (parseStationsLine line s2c c2s = some (s2c2, c2s2) →
      ∃ p0 ps sid cids, fields line = p0 :: ps ∧ ps ≠ [] ∧ parseUint32 p0 = some sid ∧
        ps.map parseUint32 = cids.map some ∧ mapHas s2c sid = false ∧
        (∀ c ∈ cids, mapHas c2s c = false) ∧ cids.Nodup ∧
        s2c2 = mapSet s2c sid cids ∧ c2s2 = assignChargers sid cids c2s) := by
  refine ⟨parseStationsLine_short line s2c c2s, ?_, ?_,
    (parseStationsLine_eq_some_iff line s2c s2c2 c2s c2s2).1⟩
  · intro p0 ps sid cids hf hsid hcids hbad
    rw [Option.eq_none_iff_forall_not_mem]
    rintro ⟨a, b⟩ hab
    obtain ⟨q0, qs, sid2, cids2, hq, _, hsid2, h1, hhas, h2, h3, _, _⟩ :=
      (parseStationsLine_eq_some_iff line s2c a c2s b).1 hab
    rw [hf] at hq
    simp only [List.cons.injEq] at hq
    obtain ⟨hq0, hqs⟩ := hq
    subst hq0 hqs
    rw [hsid] at hsid2
    have hs : sid = sid2 := Option.some.inj hsid2
    subst hs
    rw [hcids] at h1
    have hc : cids = cids2 := List.map_injective_iff.2 (Option.some_injective Nat) h1
    subst hc
    rcases hbad with hb | ⟨c, hc, hb⟩ | hb
    · rw [hhas] at hb
      exact absurd hb (by simp)
    · rw [h2 c hc] at hb
      exact absurd hb (by simp)
    · exact hb h3
  · intro p0 ps sid cids hf hne hsid hcids hhas h2 h3
    refine ⟨(parseStationsLine_eq_some_iff line s2c _ c2s _).2
      ⟨p0, ps, sid, cids, hf, hne, hsid, hcids, hhas, h2, h3, rfl, rfl⟩, ?_, ?_,
      mapGet_assignChargers sid cids c2s⟩
    · rw [mapGet_mapSet, if_pos rfl]
    · intro s hs
      rw [mapGet_mapSet, if_neg hs]

/-- C10 on the line `0 1001 1000` after station 7 with charger 2000 was declared. -/
theorem parseStationsLine_contract_witness :
    parseStationsLine "0 1001 1000".toList [(7, [2000])] [(2000, 7)]
      = some ([(7, [2000]), (0, [1001, 1000])], [(2000, 7), (1001, 0), (1000, 0)]) ∧
    parseStationsLine "7 1001 1000".toList [(7, [2000])] [(2000, 7)] = none ∧
    parseStationsLine "0 1001 2000".toList [(7, [2000])] [(2000, 7)] = none ∧
    parseStationsLine "0 1001 1001".toList [(7, [2000])] [(2000, 7)] = none ∧
    parseStationsLine "0".toList [(7, [2000])] [(2000, 7)] = none :=
  ⟨((parseStationsLine_contract "0 1001 1000".toList [(7, [2000])] [] [(2000, 7)] []).2.2.1
      "0".toList ["1001".toList, "1000".toList] 0 [1001, 1000]
      (by decide) (by decide) (by decide) (by decide) (by decide) (by decide) (by decide)).1,
   (parseStationsLine_contract "7 1001 1000".toList [(7, [2000])] [] [(2000, 7)] []).2.1
      "7".toList ["1001".toList, "1000".toList] 7 [1001, 1000]
      (by decide) (by decide) (by decide) (Or.inl (by decide)),
   (parseStationsLine_contract "0 1001 2000".toList [(7, [2000])] [] [(2000, 7)] []).2.1
      "0".toList ["1001".toList, "2000".toList] 0 [1001, 2000]
      (by decide) (by decide) (by decide) (Or.inr (Or.inl ⟨2000, by decide, by decide⟩)),
   (parseStationsLine_contract "0 1001 1001".toList [(7, [2000])] [] [(2000, 7)] []).2.1
      "0".toList ["1001".toList, "1001".toList] 0 [1001, 1001]
      (by decide) (by decide) (by decide) (Or.inr (Or.inr (by decide))),
   (parseStationsLine_contract "0".toList [(7, [2000])] [] [(2000, 7)] []).1 (by decide)⟩

/-- C16: on valid `uint64` reports, when the sorted up intervals are `r0 :: rest` (so the
station has an up report), the merged up-time the sweep computes is at most the window
`maxEnd - minStart`, so `computePercentage` is at most 100 and the clamp leaves it
unchanged. -/
theorem merged_up_time_le_window (chargers : List Nat) (m : GoMap (List Report))
    (r0 : Report) (rest : List Report)
    (hvalid : ∀ r ∈ pooledReports chargers m, r.InRange ∧ r.start ≤ r.end_)
    (hs : sortUpIntervals (scanStation chargers m).upIntervals = r0 :: rest) :
    subU64 (scanStation chargers m).maxEnd (scanStation chargers m).minStart
        = (scanStation chargers m).maxEnd - (scanStation chargers m).minStart ∧
      sweepTotal r0 rest
        ≤ subU64 (scanStation chargers m).maxEnd (scanStation chargers m).minStart ∧
      computePercentage (sweepTotal r0 rest)
        (subU64 (scanStation chargers m).maxEnd (scanStation chargers m).minStart) ≤ 100 ∧
      (if computePercentage (sweepTotal r0 rest)
          (subU64 (scanStation chargers m).maxEnd (scanStation chargers m).minStart) > 100
        then 100
        else computePercentage (sweepTotal r0 rest)
          (subU64 (scanStation chargers m).maxEnd (scanStation chargers m).minStart))
        = computePercentage (sweepTotal r0 rest)
          (subU64 (scanStation chargers m).maxEnd (scanStation chargers m).minStart) := by
  have hne : pooledReports chargers m ≠ [] := by
    intro hnil
    rw [scanStation_of_nil chargers m hnil] at hs
    have hnil2 : sortUpIntervals scanInit.upIntervals = [] := rfl
    rw [hnil2] at hs
    exact List.noConfusion hs
  obtain ⟨lo, hi, hw⟩ := exists_isWindow hne
  obtain ⟨e1, e2, e3⟩ := scanStation_of_window chargers m lo hi hw
  rw [e3] at hs
  rw [e1, e2]
  have hlohi := isWindow_le hw (fun r hr => (hvalid r hr).2)
  have hhiR := isWindow_hi_lt hw (fun r hr => (hvalid r hr).1)
  obtain ⟨hpw, hfacts⟩ := sorted_up_facts chargers m lo hi hvalid hw r0 rest hs
  have hcard := sweepTotal_eq_card r0 rest hi hhiR hpw (fun r hr => (hfacts r hr).2)
  have hle : (covered (r0 :: rest)).card ≤ hi - lo :=
    covered_card_le (fun r hr => ⟨(hfacts r hr).1, (hfacts r hr).2.2⟩)
  have hsub : subU64 hi lo = hi - lo := subU64_of_le hlohi hhiR
  have hpct : computePercentage (sweepTotal r0 rest) (hi - lo) ≤ 100 := by
    rcases Nat.eq_zero_or_pos (hi - lo) with h0 | hpos
    · rw [h0]; simp [computePercentage]
    · rw [hcard, computePercentage_of_le hle hpos]
      exact percentage_le_hundred hle
  refine ⟨hsub, ?_, ?_, ?_⟩
  · rw [hsub, hcard]; exact hle
  · rw [hsub]; exact hpct
  · rw [hsub, if_neg (by omega)]

/-- C16 on up intervals of charger 1 combined with down-only reports of charger 2: the
merged up-time is 80 in a window of 90. -/
theorem merged_up_time_le_window_witness :
    sweepTotal ⟨10, 40, true⟩ [⟨30, 90, true⟩] = 80 ∧
    subU64 90 0 = 90 - 0 ∧
    sweepTotal ⟨10, 40, true⟩ [⟨30, 90, true⟩] ≤ subU64 90 0 ∧
    computePercentage (sweepTotal ⟨10, 40, true⟩ [⟨30, 90, true⟩]) (subU64 90 0) ≤ 100 ∧
    (if computePercentage (sweepTotal ⟨10, 40, true⟩ [⟨30, 90, true⟩]) (subU64 90 0) > 100
      then 100
      else computePercentage (sweepTotal ⟨10, 40, true⟩ [⟨30, 90, true⟩]) (subU64 90 0))
      = computePercentage (sweepTotal ⟨10, 40, true⟩ [⟨30, 90, true⟩]) (subU64 90 0) :=
  ⟨by decide,
   merged_up_time_le_window [1, 2]
    [(1, [⟨30, 90, true⟩, ⟨10, 40, true⟩]), (2, [⟨0, 20, false⟩, ⟨50, 60, false⟩])]
    ⟨10, 40, true⟩ [⟨30, 90, true⟩] (by decide) (by decide)⟩

/-- C18: on valid `uint64` reports no `uint64` operation of `computeStationUptime` wraps:
`minStart ≤ maxEnd` at the window subtraction; before every iteration of the merging loop
and after its last one (the state after any `k` iterations) `currentStart ≤ currentEnd`
and `totalUp + (currentEnd - currentStart) < 2 ^ 64`, so each machine subtraction and
addition equals the exact one; and the machine total is the exact number of covered
instants. -/
theorem no_uint64_wrap (chargers : List Nat) (m : GoMap (List Report))
    (r0 : Report) (rest : List Report) (k : Nat)
    (hvalid : ∀ r ∈ pooledReports chargers m, r.InRange ∧ r.start ≤ r.end_) :
    ((scanStation chargers m).minStart ≤ (scanStation chargers m).maxEnd ∧
      subU64 (scanStation chargers m).maxEnd (scanStation chargers m).minStart
        = (scanStation chargers m).maxEnd - (scanStation chargers m).minStart) ∧
    (sortUpIntervals (scanStation chargers m).upIntervals = r0 :: rest →
      ((rest.take k).foldl sweepStep ⟨r0.start, r0.end_, 0⟩).currentStart
        ≤ ((rest.take k).foldl sweepStep ⟨r0.start, r0.end_, 0⟩).currentEnd ∧
      ((rest.take k).foldl sweepStep ⟨r0.start, r0.end_, 0⟩).totalUp
        + (((rest.take k).foldl sweepStep ⟨r0.start, r0.end_, 0⟩).currentEnd
          - ((rest.take k).foldl sweepStep ⟨r0.start, r0.end_, 0⟩).currentStart) < u64Size ∧
      subU64 ((rest.take k).foldl sweepStep ⟨r0.start, r0.end_, 0⟩).currentEnd
          ((rest.take k).foldl sweepStep ⟨r0.start, r0.end_, 0⟩).currentStart
        = ((rest.take k).foldl sweepStep ⟨r0.start, r0.end_, 0⟩).currentEnd
          - ((rest.take k).foldl sweepStep ⟨r0.start, r0.end_, 0⟩).currentStart ∧
      addU64 ((rest.take k).foldl sweepStep ⟨r0.start, r0.end_, 0⟩).totalUp
          (((rest.take k).foldl sweepStep ⟨r0.start, r0.end_, 0⟩).currentEnd
            - ((rest.take k).foldl sweepStep ⟨r0.start, r0.end_, 0⟩).currentStart)
        = ((rest.take k).foldl sweepStep ⟨r0.start, r0.end_, 0⟩).totalUp
          + (((rest.take k).foldl sweepStep ⟨r0.start, r0.end_, 0⟩).currentEnd
            - ((rest.take k).foldl sweepStep ⟨r0.start, r0.end_, 0⟩).currentStart) ∧
      sweepTotal r0 rest = (covered (r0 :: rest)).card) := by
  by_cases hnil : pooledReports chargers m = []
  · rw [scanStation_of_nil chargers m hnil]
    refine ⟨⟨Nat.le_refl _, subU64_self _⟩, ?_⟩
    intro hs
    have hnil2 : sortUpIntervals scanInit.upIntervals = [] := rfl
    rw [hnil2] at hs
    exact List.noConfusion hs
  · obtain ⟨lo, hi, hw⟩ := exists_isWindow hnil
    obtain ⟨e1, e2, e3⟩ := scanStation_of_window chargers m lo hi hw
    rw [e1, e2, e3]
    have hlohi := isWindow_le hw (fun r hr => (hvalid r hr).2)
    have hhiR := isWindow_hi_lt hw (fun r hr => (hvalid r hr).1)
    refine ⟨⟨hlohi, subU64_of_le hlohi hhiR⟩, ?_⟩
    intro hs
    obtain ⟨hpw, hfacts⟩ := sorted_up_facts chargers m lo hi hvalid hw r0 rest hs
    have h0 := hfacts r0 (List.mem_cons_self _ _)
    have hsub : (rest.take k).Sublist rest := List.take_sublist k rest
    have hinv := sweep_invariant hi hhiR (rest.take k) (SweepState.mk r0.start r0.end_ 0)
      h0.2.1 h0.2.2
      (fun r hr => ⟨(List.pairwise_cons.1 hpw).1 r (hsub.subset hr),
        (hfacts r (List.mem_cons_of_mem _ (hsub.subset hr))).2⟩)
      ((List.pairwise_cons.1 hpw).2.sublist hsub) (by simp only; omega)
    obtain ⟨i1, i2, i3⟩ := hinv
    have hlt : ((rest.take k).foldl sweepStep ⟨r0.start, r0.end_, 0⟩).totalUp
        + (((rest.take k).foldl sweepStep ⟨r0.start, r0.end_, 0⟩).currentEnd
          - ((rest.take k).foldl sweepStep ⟨r0.start, r0.end_, 0⟩).currentStart) < u64Size := by
      omega
    exact ⟨i1, hlt, subU64_of_le i1 (by omega), addU64_of_lt hlt,
      sweepTotal_eq_card r0 rest hi hhiR hpw (fun r hr => (hfacts r hr).2)⟩

/-- C18 on three up intervals near the top of the `uint64` range, after one iteration of
the merging loop. -/
theorem no_uint64_wrap_witness :
    (0 ≤ 18446744073709551615 ∧
      subU64 18446744073709551615 0 = 18446744073709551615 - 0) ∧
    ((List.take 1 [(⟨5, 18446744073709551615, true⟩ : Report), ⟨7, 9, true⟩]).foldl sweepStep
        ⟨0, 3, 0⟩).currentStart
      ≤ ((List.take 1 [(⟨5, 18446744073709551615, true⟩ : Report), ⟨7, 9, true⟩]).foldl
        sweepStep ⟨0, 3, 0⟩).currentEnd ∧
    sweepTotal ⟨0, 3, true⟩ [⟨5, 18446744073709551615, true⟩, ⟨7, 9, true⟩]
      = 18446744073709551613 :=
  (fun h => ⟨h.1, (h.2 (by decide)).1, by decide⟩)
    (no_uint64_wrap [1]
      [(1, [⟨7, 9, true⟩, ⟨0, 3, true⟩, ⟨5, 18446744073709551615, true⟩])]
      ⟨0, 3, true⟩ [⟨5, 18446744073709551615, true⟩, ⟨7, 9, true⟩] 1 (by decide))

/-- C19: for two report tables that agree on the station's chargers except that some
reports marked down in the first are marked up in the second (valid `uint64` intervals),
either both computations fail or both return, the first result at most the second. -/
theorem computeStationUptime_mono_up (sid : Nat) (chargers : List Nat)
    (m m2 : GoMap (List Report))
    (hvalid : ∀ r ∈ pooledReports chargers m, r.InRange ∧ r.start ≤ r.end_)
    (h : ∀ cid ∈ chargers, List.Forall₂ UpFlagRaised (reportsOf m cid) (reportsOf m2 cid)) :
    (computeStationUptime sid chargers m = none ∧ computeStationUptime sid chargers m2 = none) ∨
    ∃ a b, computeStationUptime sid chargers m = some a ∧
      computeStationUptime sid chargers m2 = some b ∧ a ≤ b := by
  have hL := pooled_raised_left chargers m m2 h
  have hR := pooled_raised_right chargers m m2 h
  by_cases hnil : pooledReports chargers m = []
  · have hnil2 : pooledReports chargers m2 = [] := by
      by_contra hne
      obtain ⟨x, hx⟩ := List.exists_mem_of_ne_nil _ hne
      obtain ⟨r, hr, _⟩ := hR x hx
      rw [hnil] at hr
      simp at hr
    exact Or.inl ⟨computeStationUptime_nil sid chargers m hnil,
      computeStationUptime_nil sid chargers m2 hnil2⟩
  · right
    obtain ⟨lo, hi, hw⟩ := exists_isWindow hnil
    have hw2 : IsWindow (pooledReports chargers m2) lo hi := by
      obtain ⟨⟨a, ha, ha1⟩, hlo, ⟨b, hb, hb1⟩, hhi⟩ := hw
      refine ⟨?_, ?_, ?_, ?_⟩
      · obtain ⟨a2, ha2, hrel⟩ := hL a ha
        exact ⟨a2, ha2, by rw [← hrel.1]; exact ha1⟩
      · intro x hx
        obtain ⟨r, hr, hrel⟩ := hR x hx
        rw [← hrel.1]; exact hlo r hr
      · obtain ⟨b2, hb2, hrel⟩ := hL b hb
        exact ⟨b2, hb2, by rw [← hrel.2.1]; exact hb1⟩
      · intro x hx
        obtain ⟨r, hr, hrel⟩ := hR x hx
        rw [← hrel.2.1]; exact hhi r hr
    have hvalid2 : ∀ r ∈ pooledReports chargers m2, r.InRange ∧ r.start ≤ r.end_ := by
      intro x hx
      obtain ⟨r, hr, hrel⟩ := hR x hx
      have := hvalid r hr
      unfold Report.InRange at this ⊢
      rw [← hrel.1, ← hrel.2.1]
      exact this
    have hlohi := isWindow_le hw (fun r hr => (hvalid r hr).2)
    rcases Nat.eq_or_lt_of_le hlohi with heq | hlt
    · subst heq
      refine ⟨0, 0, ?_, ?_, Nat.le_refl _⟩
      · rw [computeStationUptime_window sid chargers m lo lo hw, subU64_self, if_pos rfl]
      · rw [computeStationUptime_window sid chargers m2 lo lo hw2, subU64_self, if_pos rfl]
    · refine ⟨_, _,
        computeStationUptime_exact sid chargers m lo hi (fun r hr => (hvalid r hr).2)
          (fun r hr => (hvalid r hr).1) hw hlt,
        computeStationUptime_exact sid chargers m2 lo hi (fun r hr => (hvalid2 r hr).2)
          (fun r hr => (hvalid2 r hr).1) hw2 hlt, ?_⟩
      apply Nat.div_le_div_right
      apply Nat.mul_le_mul_left
      apply Finset.card_le_card
      intro t ht
      obtain ⟨r, hr, h1, h2⟩ := mem_covered.1 ht
      obtain ⟨hrm, hrup⟩ := List.mem_filter.1 hr
      obtain ⟨r2, hr2, hrel⟩ := hL r hrm
      refine mem_covered.2 ⟨r2, List.mem_filter.2 ⟨hr2, hrel.2.2 hrup⟩, ?_, ?_⟩
      · rw [← hrel.1]; exact h1
      · rw [← hrel.2.1]; exact h2

/-- C19 on a station whose down report `[100, 200]` becomes an up report: 50 rises to 100. -/
theorem computeStationUptime_mono_up_witness :
    computeStationUptime 0 [1] [(1, [⟨0, 100, true⟩, ⟨100, 200, false⟩])] = some 50 ∧
    computeStationUptime 0 [1] [(1, [⟨0, 100, true⟩, ⟨100, 200, true⟩])] = some 100 ∧
    ((computeStationUptime 0 [1] [(1, [⟨0, 100, true⟩, ⟨100, 200, false⟩])] = none ∧
        computeStationUptime 0 [1] [(1, [⟨0, 100, true⟩, ⟨100, 200, true⟩])] = none) ∨
      ∃ a b, computeStationUptime 0 [1] [(1, [⟨0, 100, true⟩, ⟨100, 200, false⟩])] = some a ∧
        computeStationUptime 0 [1] [(1, [⟨0, 100, true⟩, ⟨100, 200, true⟩])] = some b ∧
        a ≤ b) :=
  ⟨by decide, by decide,
   computeStationUptime_mono_up 0 [1] [(1, [⟨0, 100, true⟩, ⟨100, 200, false⟩])]
    [(1, [⟨0, 100, true⟩, ⟨100, 200, true⟩])] (by decide) (by decide)⟩

/-- C20: on valid `uint64` reports with a window `lo < hi`, `computeStationUptime`
returns 100 exactly when every instant `t` with `lo ≤ t < hi` lies in `[start, end)` of
some up report; when some instant of the window is uncovered the result is at most 99. -/
theorem computeStationUptime_hundred_iff (sid : Nat) (chargers : List Nat)
    (m : GoMap (List Report)) (lo hi : Nat)
    (hvalid : ∀ r ∈ pooledReports chargers m, r.InRange ∧ r.start ≤ r.end_)
    (hw : IsWindow (pooledReports chargers m) lo hi) (hpos : lo < hi) :
    (computeStationUptime sid chargers m = some 100 ↔
      ∀ t, lo ≤ t → t < hi →
        ∃ r ∈ pooledReports chargers m, r.up = true ∧ r.start ≤ t ∧ t < r.end_) ∧
    ((∃ t, lo ≤ t ∧ t < hi ∧
        ¬ ∃ r ∈ pooledReports chargers m, r.up = true ∧ r.start ≤ t ∧ t < r.end_) →
      ∃ u, computeStationUptime sid chargers m = some u ∧ u ≤ 99) := by
  have hex := computeStationUptime_exact sid chargers m lo hi (fun r hr => (hvalid r hr).2)
    (fun r hr => (hvalid r hr).1) hw hpos
  obtain ⟨_, hlo, _, hhi⟩ := hw
  have hb : ∀ r ∈ (pooledReports chargers m).filter (fun r => r.up),
      lo ≤ r.start ∧ r.end_ ≤ hi := fun r hr =>
    ⟨hlo r (List.mem_filter.1 hr).1, hhi r (List.mem_filter.1 hr).1⟩
  have hle := covered_card_le hb
  have hiff := covered_eq_Ico_iff hb
  have hcov : (∀ t, lo ≤ t → t < hi →
        ∃ r ∈ pooledReports chargers m, r.up = true ∧ r.start ≤ t ∧ t < r.end_) ↔
      (covered ((pooledReports chargers m).filter (fun r => r.up))).card = hi - lo := by
    rw [hiff]
    simp only [List.mem_filter, and_assoc]
  have hval : 100 * (covered ((pooledReports chargers m).filter (fun r => r.up))).card
        / (hi - lo) = 100 ↔
      (covered ((pooledReports chargers m).filter (fun r => r.up))).card = hi - lo := by
    constructor
    · intro h100
      by_contra hne
      have hlt : (covered ((pooledReports chargers m).filter (fun r => r.up))).card
          < hi - lo := by omega
      have : 100 * (covered ((pooledReports chargers m).filter (fun r => r.up))).card
          / (hi - lo) < 100 := by
        rw [Nat.div_lt_iff_lt_mul (by omega)]
        exact Nat.mul_lt_mul_of_pos_left hlt (by norm_num)
      omega
    · intro heq
      rw [heq]
      exact Nat.mul_div_cancel _ (by omega)
  refine ⟨?_, ?_⟩
  · rw [hex, hcov, ← hval]
    simp only [Option.some.injEq]
  · rintro ⟨t, h1, h2, hgap⟩
    refine ⟨_, hex, ?_⟩
    have hne : ¬ (100 * (covered ((pooledReports chargers m).filter (fun r => r.up))).card
        / (hi - lo) = 100) := by
      rw [hval, ← hcov]
      intro hall
      exact hgap (hall t h1 h2)
    have := percentage_le_hundred hle
    omega

/-- C20 on a window `[0, 1000)` whose single instant 500 is not covered: the result is 99;
with the gap closed it is 100. -/
theorem computeStationUptime_hundred_iff_witness :
    computeStationUptime 0 [1]
        [(1, [⟨0, 500, true⟩, ⟨501, 1000, true⟩, ⟨400, 600, false⟩])] = some 99 ∧
    (∃ u, computeStationUptime 0 [1]
        [(1, [⟨0, 500, true⟩, ⟨501, 1000, true⟩, ⟨400, 600, false⟩])] = some u ∧ u ≤ 99) ∧
    computeStationUptime 0 [1] [(1, [⟨0, 500, true⟩, ⟨500, 1000, true⟩])] = some 100 :=
  ⟨by decide,
   (computeStationUptime_hundred_iff 0 [1]
      [(1, [⟨0, 500, true⟩, ⟨501, 1000, true⟩, ⟨400, 600, false⟩])] 0 1000
      (by decide) (by decide) (by decide)).2 ⟨500, by decide, by decide, by decide⟩,
   by decide⟩

/-- C13: when `parseInput` succeeds there is at least one station, station ids are
distinct, every station's charger list is non-empty and duplicate-free, the lists of
distinct stations are disjoint, and `chargerToStation[c] = s` exactly when `c` occurs in
`stationToChargers[s]`; an input whose station section is empty always fails. -/
theorem parseInput_ownership (lines : List (List Char)) (scanErr : Bool) (p : ParsedInput) :
    (parseInput lines scanErr = some p →
      p.stationToChargers ≠ [] ∧ (mapKeys p.stationToChargers).Nodup ∧
      (∀ s ∈ mapKeys p.stationToChargers,
        chargersOf p.stationToChargers s ≠ [] ∧ (chargersOf p.stationToChargers s).Nodup) ∧
      (∀ s1 ∈ mapKeys p.stationToChargers, ∀ s2 ∈ mapKeys p.stationToChargers, s1 ≠ s2 →
        ∀ c ∈ chargersOf p.stationToChargers s1, c ∉ chargersOf p.stationToChargers s2) ∧
      (∀ c s, mapGet p.chargerToStation c = some s ↔
        (s ∈ mapKeys p.stationToChargers ∧ c ∈ chargersOf p.stationToChargers s))) ∧
    (stationSection lines = [] → parseInput lines scanErr = none) := by
  constructor
  · intro h
    obtain ⟨_, hne, _, _, hsf, _, _⟩ := parseInput_shape lines scanErr p h
    obtain ⟨hk, hlists, hinverse⟩ := stationsFold_inv _ [] _ [] _ stationsInv_empty hsf
    refine ⟨hne, hk, ?_, ?_, ?_⟩
    · intro s hs
      obtain ⟨v, hv⟩ := mapGet_isSome_of_mem_keys _ s hs
      rw [chargersOf_of_mapGet _ s v hv]
      exact hlists s v hv
    · intro s1 _ s2 _ hne12 c hc1 hc2
      have e1 := (hinverse c s1).2 ((mem_chargersOf_iff _ s1 c).1 hc1)
      have e2 := (hinverse c s2).2 ((mem_chargersOf_iff _ s2 c).1 hc2)
      rw [e1] at e2
      exact hne12 (Option.some.inj e2)
    · intro c s
      rw [hinverse c s, mem_chargersOf_iff]
      constructor
      · rintro ⟨cids, h1, h2⟩
        exact ⟨mem_keys_of_mapGet _ s cids h1, cids, h1, h2⟩
      · rintro ⟨_, h2⟩
        exact h2
  · intro hempty
    rw [Option.eq_none_iff_forall_not_mem]
    intro q hq
    obtain ⟨_, hne, _, _, hsf, _, _⟩ := parseInput_shape lines scanErr q hq
    rw [hempty] at hsf
    simp only [stationsFold, Option.some.injEq, Prod.mk.injEq] at hsf
    exact hne hsf.1.symm

/-- C13 on an input with two stations, and on an input with both headers and no station
line. -/
theorem parseInput_ownership_witness :
    parseInput ["[Stations]".toList, "0 1001 1002".toList, "1 1003".toList,
        "[Charger Availability Reports]".toList, "1001 0 5 true".toList] false
      = some ⟨[(0, [1001, 1002]), (1, [1003])], [(1001, 0), (1002, 0), (1003, 1)],
          [(1001, [⟨0, 5, true⟩])]⟩ ∧
    (mapKeys [(0, [1001, 1002]), (1, [1003])]).Nodup ∧
    (mapGet [(1001, 0), (1002, 0), (1003, 1)] 1003 = some 1 ↔
      (1 ∈ mapKeys [(0, [1001, 1002]), (1, [1003])] ∧
        1003 ∈ chargersOf [(0, [1001, 1002]), (1, [1003])] 1)) ∧
    parseInput ["[Stations]".toList, "[Charger Availability Reports]".toList,
        "1001 0 5 true".toList] false = none :=
  ⟨by decide,
   ((parseInput_ownership ["[Stations]".toList, "0 1001 1002".toList, "1 1003".toList,
        "[Charger Availability Reports]".toList, "1001 0 5 true".toList] false
      ⟨[(0, [1001, 1002]), (1, [1003])], [(1001, 0), (1002, 0), (1003, 1)],
        [(1001, [⟨0, 5, true⟩])]⟩).1 (by decide)).2.1,
   ((parseInput_ownership ["[Stations]".toList, "0 1001 1002".toList, "1 1003".toList,
        "[Charger Availability Reports]".toList, "1001 0 5 true".toList] false
      ⟨[(0, [1001, 1002]), (1, [1003])], [(1001, 0), (1002, 0), (1003, 1)],
        [(1001, [⟨0, 5, true⟩])]⟩).1 (by decide)).2.2.2.2 1003 1,
   (parseInput_ownership ["[Stations]".toList, "[Charger Availability Reports]".toList,
        "1001 0 5 true".toList] false ⟨[], [], []⟩).2 (by decide)⟩

/-- C17: when `parseInput` succeeds, every line of the report section denotes a report,
`chargerReports[c]` is exactly the sequence of reports of the report lines whose charger
field is `c`, in input order, every key of `chargerReports` is a key of
`chargerToStation`, and every stored report has `start ≤ end`. -/
theorem parseInput_reports (lines : List (List Char)) (scanErr : Bool) (p : ParsedInput)
    (h : parseInput lines scanErr = some p) :
    (∀ line ∈ reportSection lines, ∃ cid r, lineReport line = some (cid, r)) ∧
    (∀ c, reportsOf p.chargerReports c = reportsFor c (reportSection lines)) ∧
    (∀ c ∈ mapKeys p.chargerReports, c ∈ mapKeys p.chargerToStation) ∧
    (∀ c, ∀ r ∈ reportsOf p.chargerReports c, r.start ≤ r.end_) := by
  obtain ⟨_, _, _, _, _, hrf, _⟩ := parseInput_shape lines scanErr p h
  obtain ⟨h1, h2, h3⟩ := reportsFold_spec _ _ [] _ hrf
  have hall : ∀ c, reportsOf p.chargerReports c = reportsFor c (reportSection lines) := by
    intro c
    rw [h2 c]
    simp [reportsOf, mapGet]
  refine ⟨?_, hall, ?_, ?_⟩
  · intro line hl
    obtain ⟨cid, r, hlr, _⟩ := h1 line hl
    exact ⟨cid, r, hlr⟩
  · intro c hc
    rcases h3 c hc with hk | hk
    · simp [mapKeys] at hk
    · exact (mapHas_iff_mem_keys _ c).1 hk
  · intro c r hr
    rw [hall c] at hr
    unfold reportsFor at hr
    obtain ⟨x, hx, hxr⟩ := List.mem_map.1 hr
    obtain ⟨hx1, _⟩ := List.mem_filter.1 hx
    obtain ⟨line, hline, hlr⟩ := List.mem_filterMap.1 hx1
    obtain ⟨cid, r2, hlr2, _, hle⟩ := h1 line hline
    rw [hlr2] at hlr
    have : (cid, r2) = x := Option.some.inj hlr
    rw [← hxr, ← this]
    exact hle

/-- C17 on an input whose report lines for chargers 1001 and 1002 are interleaved. -/
theorem parseInput_reports_witness :
    parseInput ["[Stations]".toList, "0 1001 1002".toList,
        "[Charger Availability Reports]".toList, "1001 0 5 true".toList,
        "1002 3 4 false".toList, "1001 5 9 FALSE".toList] false
      = some ⟨[(0, [1001, 1002])], [(1001, 0), (1002, 0)],
          [(1001, [⟨0, 5, true⟩, ⟨5, 9, false⟩]), (1002, [⟨3, 4, false⟩])]⟩ ∧
    reportsOf [(1001, [⟨0, 5, true⟩, ⟨5, 9, false⟩]), (1002, [⟨3, 4, false⟩])] 1001
      = reportsFor 1001 (reportSection ["[Stations]".toList, "0 1001 1002".toList,
        "[Charger Availability Reports]".toList, "1001 0 5 true".toList,
        "1002 3 4 false".toList, "1001 5 9 FALSE".toList]) ∧
    reportsFor 1001 (reportSection ["[Stations]".toList, "0 1001 1002".toList,
        "[Charger Availability Reports]".toList, "1001 0 5 true".toList,
        "1002 3 4 false".toList, "1001 5 9 FALSE".toList])
      = [⟨0, 5, true⟩, ⟨5, 9, false⟩] :=
  ⟨by decide,
   (parseInput_reports ["[Stations]".toList, "0 1001 1002".toList,
        "[Charger Availability Reports]".toList, "1001 0 5 true".toList,
        "1002 3 4 false".toList, "1001 5 9 FALSE".toList] false
      ⟨[(0, [1001, 1002])], [(1001, 0), (1002, 0)],
        [(1001, [⟨0, 5, true⟩, ⟨5, 9, false⟩]), (1002, [⟨3, 4, false⟩])]⟩
      (by decide)).2.1 1001,
   by decide⟩

/-- C14: when the whole run (`parseInput`, then `computeAllStationUptimes`) produces
results, the input contains the reports header and, for every declared station, a report
line for one of its chargers; an input without the reports header, or with a declared
station none of whose chargers has a report line, fails. -/
theorem main_requires_reports (lines : List (List Char)) (scanErr : Bool)
    (res : List StationResult) (p : ParsedInput) :
    (main lines scanErr = some res →
      reportsHeader ∈ trimmedLines lines ∧
      ∃ q, parseInput lines scanErr = some q ∧
        ∀ s ∈ mapKeys q.stationToChargers, ∃ line ∈ reportSection lines, ∃ cid r,
          lineReport line = some (cid, r) ∧ cid ∈ chargersOf q.stationToChargers s) ∧
    (reportsHeader ∉ trimmedLines lines → main lines scanErr = none) ∧
    (parseInput lines scanErr = some p →
      (∃ s ∈ mapKeys p.stationToChargers, ∀ line ∈ reportSection lines, ∀ cid r,
        lineReport line = some (cid, r) → cid ∉ chargersOf p.stationToChargers s) →
      main lines scanErr = none) := by
  refine ⟨main_reported lines scanErr res, ?_, ?_⟩
  · intro hno
    rw [Option.eq_none_iff_forall_not_mem]
    intro r hr
    exact hno (main_reported lines scanErr r hr).1
  · intro hp ⟨s, hs, hnone⟩
    rw [Option.eq_none_iff_forall_not_mem]
    intro r hr
    obtain ⟨_, q, hq, hall⟩ := main_reported lines scanErr r hr
    rw [hp] at hq
    have hpq : p = q := Option.some.inj hq
    subst hpq
    obtain ⟨line, hline, cid, rep, hlr, hcid⟩ := hall s hs
    exact hnone line hline cid rep hlr hcid

/-- C14 on a complete input, on an input without the reports section, and on an input
whose station 1 has no report line. -/
theorem main_requires_reports_witness :
    main ["[Stations]".toList, "0 1001".toList, "[Charger Availability Reports]".toList,
        "1001 0 100 true".toList, "1001 100 200 false".toList] false = some [⟨0, 50⟩] ∧
    reportsHeader ∈ trimmedLines ["[Stations]".toList, "0 1001".toList,
        "[Charger Availability Reports]".toList, "1001 0 100 true".toList,
        "1001 100 200 false".toList] ∧
    main ["[Stations]".toList, "0 1001".toList] false = none ∧
    main ["[Stations]".toList, "0 1001".toList, "1 1002".toList,
        "[Charger Availability Reports]".toList, "1001 0 100 true".toList] false = none :=
  ⟨by decide,
   ((main_requires_reports ["[Stations]".toList, "0 1001".toList,
        "[Charger Availability Reports]".toList, "1001 0 100 true".toList,
        "1001 100 200 false".toList] false [⟨0, 50⟩] ⟨[], [], []⟩).1 (by decide)).1,
   (main_requires_reports ["[Stations]".toList, "0 1001".toList] false [] ⟨[], [], []⟩).2.1
      (by decide),
   (main_requires_reports ["[Stations]".toList, "0 1001".toList, "1 1002".toList,
        "[Charger Availability Reports]".toList, "1001 0 100 true".toList] false []
      ⟨[(0, [1001]), (1, [1002])], [(1001, 0), (1002, 1)], [(1001, [⟨0, 100, true⟩])]⟩).2.2
      (by decide)
      ⟨1, by decide, fun line hline cid r hlr => by
        have hsec : reportSection ["[Stations]".toList, "0 1001".toList, "1 1002".toList,
            "[Charger Availability Reports]".toList, "1001 0 100 true".toList]
            = ["1001 0 100 true".toList] := by decide
        rw [hsec, List.mem_singleton] at hline
        have hval : lineReport "1001 0 100 true".toList = some (1001, ⟨0, 100, true⟩) := by
          decide
        rw [hline, hval] at hlr
        have hcid : cid = 1001 := by
          have := congrArg Prod.fst (Option.some.inj hlr)
          exact this.symm
        rw [hcid]
        decide⟩⟩

/-- C11: `parseInput` fails when, among the trimmed non-blank lines, the reports header
occurs with no stations header before it, when either header occurs twice, or when a
line that is not a header occurs with no header before it. -/
theorem parseInput_header_order (lines : List (List Char)) (scanErr : Bool)
    (pre rest : List (List Char)) (d : List Char) :
    (trimmedLines lines = pre ++ reportsHeader :: rest → stationsHeader ∉ pre →
      parseInput lines scanErr = none) ∧
    (2 ≤ (trimmedLines lines).count stationsHeader ∨
        2 ≤ (trimmedLines lines).count reportsHeader →
      parseInput lines scanErr = none) ∧
    (trimmedLines lines = pre ++ d :: rest → HeaderFree pre →
      d ≠ stationsHeader → d ≠ reportsHeader → parseInput lines scanErr = none) := by
  refine ⟨?_, ?_, ?_⟩
  · intro hT hpre
    rw [Option.eq_none_iff_forall_not_mem]
    intro p hp
    obtain ⟨⟨tl, htl⟩, _, _⟩ := parseInput_headers lines scanErr p hp
    rw [hT] at htl
    cases pre with
    | nil =>
        simp only [List.nil_append, List.cons.injEq] at htl
        exact stationsHeader_ne_reportsHeader htl.1.symm
    | cons x xs =>
        simp only [List.cons_append, List.cons.injEq] at htl
        exact hpre (by rw [htl.1]; exact List.mem_cons_self _ _)
  · intro hcount
    rw [Option.eq_none_iff_forall_not_mem]
    intro p hp
    obtain ⟨_, h1, h2⟩ := parseInput_headers lines scanErr p hp
    omega
  · intro hT hpre hd1 _
    rw [Option.eq_none_iff_forall_not_mem]
    intro p hp
    obtain ⟨⟨tl, htl⟩, _, _⟩ := parseInput_headers lines scanErr p hp
    rw [hT] at htl
    cases pre with
    | nil =>
        simp only [List.nil_append, List.cons.injEq] at htl
        exact hd1 htl.1
    | cons x xs =>
        simp only [List.cons_append, List.cons.injEq] at htl
        exact (hpre x (List.mem_cons_self _ _)).1 htl.1

/-- C11 on a reports header before the stations header, a repeated stations header, a
repeated reports header, and a data line before any header. -/
theorem parseInput_header_order_witness :
    parseInput ["[Charger Availability Reports]".toList, "[Stations]".toList,
        "0 1001".toList] false = none ∧
    parseInput ["[Stations]".toList, "0 1001".toList, " [Stations]".toList] false = none ∧
    parseInput ["[Stations]".toList, "0 1001".toList, "[Charger Availability Reports]".toList,
        "1001 0 1 true".toList, "[Charger Availability Reports]".toList] false = none ∧
    parseInput ["".toList, "0 1001".toList, "[Stations]".toList] false = none :=
  ⟨(parseInput_header_order ["[Charger Availability Reports]".toList, "[Stations]".toList,
        "0 1001".toList] false [] ["[Stations]".toList, "0 1001".toList] []).1
      (by decide) (by decide),
   (parseInput_header_order ["[Stations]".toList, "0 1001".toList, " [Stations]".toList]
      false [] [] []).2.1 (Or.inl (by decide)),
   (parseInput_header_order ["[Stations]".toList, "0 1001".toList,
        "[Charger Availability Reports]".toList, "1001 0 1 true".toList,
        "[Charger Availability Reports]".toList] false [] [] []).2.1 (Or.inr (by decide)),
   (parseInput_header_order ["".toList, "0 1001".toList, "[Stations]".toList] false []
      ["[Stations]".toList] "0 1001".toList).2.2
      (by decide) (by decide) (by decide) (by decide)⟩

/-- C15 fails on the code: appending a whitespace-only line of 65536 spaces to an accepted
input (the two inputs agree once blank lines are removed) makes `parseInput` fail, because
the scanner stops with `ErrTooLong`. -/
theorem parseInputFile_long_blank_line_fails :
    isBlank (List.replicate 65536 (Char.ofNat 32)) = true ∧
    (["[Stations]".toList, "0 1001".toList, "[Charger Availability Reports]".toList,
        "1001 0 5 true".toList] ++ [List.replicate 65536 (Char.ofNat 32)]).filter
        (fun l => !isBlank l)
      = ["[Stations]".toList, "0 1001".toList, "[Charger Availability Reports]".toList,
        "1001 0 5 true".toList].filter (fun l => !isBlank l) ∧
    parseInputFile ["[Stations]".toList, "0 1001".toList,
        "[Charger Availability Reports]".toList, "1001 0 5 true".toList]
      = some ⟨[(0, [1001])], [(1001, 0)], [(1001, [⟨0, 5, true⟩])]⟩ ∧
    parseInputFile (["[Stations]".toList, "0 1001".toList,
        "[Charger Availability Reports]".toList, "1001 0 5 true".toList]
        ++ [List.replicate 65536 (Char.ofNat 32)]) = none := by
  have hb := isBlank_replicate_space 65536
  refine ⟨hb, ?_, by decide, ?_⟩
  · exact filter_append_blank _ _ hb
  · apply parseInputFile_too_long
    refine ⟨List.replicate 65536 (Char.ofNat 32),
      List.mem_append_right _ (List.mem_singleton_self _), ?_⟩
    rw [byteLength_replicate]
    decide

/-- C15 as amended: blank lines are ignored among lines below the scanner's token limit:
two sequences of raw lines, each line shorter than `maxScanTokenSize` bytes, that agree
once their empty and whitespace-only lines are removed have the same outcome of
`parseInput` (both fail, or both return identical maps); in particular removing all blank
lines from such a sequence changes nothing. -/
theorem parseInputFile_ignores_blank_lines (L L2 : List (List Char))
    (hL : ∀ l ∈ L, byteLength l < maxScanTokenSize)
    (hL2 : ∀ l ∈ L2, byteLength l < maxScanTokenSize) :
    (L.filter (fun l => !isBlank l) = L2.filter (fun l => !isBlank l) →
      parseInputFile L = parseInputFile L2) ∧
    parseInputFile L = parseInputFile (L.filter (fun l => !isBlank l)) := by
  have key : ∀ A B : List (List Char),
      (∀ l ∈ A, byteLength l < maxScanTokenSize) →
      (∀ l ∈ B, byteLength l < maxScanTokenSize) →
      A.filter (fun l => !isBlank l) = B.filter (fun l => !isBlank l) →
      parseInputFile A = parseInputFile B := by
    intro A B hA hB h
    unfold parseInputFile
    rw [scanFile_of_short A hA, scanFile_of_short B hB]
    apply parseInput_congr_trimmed
    rw [trimmedLines_map_dropCR, trimmedLines_map_dropCR, trimmedLines_eq_filter A,
      trimmedLines_eq_filter B, h]
  refine ⟨key L L2 hL hL2, key L _ hL (fun l hl => hL l (List.mem_filter.1 hl).1) ?_⟩
  rw [List.filter_filter]
  simp

/-- C15 as amended, on an input with blank lines at the start, inside both sections and at
the end, one of them ending in a carriage return. -/
theorem parseInputFile_ignores_blank_lines_witness :
    parseInputFile ["  ".toList, "[Stations]".toList, "".toList, "0 1001".toList,
        "[Charger Availability Reports]".toList, [Char.ofNat 32, Char.ofNat 13],
        "1001 0 5 true".toList, "".toList]
      = parseInputFile ["[Stations]".toList, "0 1001".toList,
        "[Charger Availability Reports]".toList, "1001 0 5 true".toList] ∧
    parseInputFile ["[Stations]".toList, "0 1001".toList,
        "[Charger Availability Reports]".toList, "1001 0 5 true".toList]
      = some ⟨[(0, [1001])], [(1001, 0)], [(1001, [⟨0, 5, true⟩])]⟩ :=
  ⟨(parseInputFile_ignores_blank_lines ["  ".toList, "[Stations]".toList, "".toList,
        "0 1001".toList, "[Charger Availability Reports]".toList,
        [Char.ofNat 32, Char.ofNat 13], "1001 0 5 true".toList, "".toList]
      ["[Stations]".toList, "0 1001".toList, "[Charger Availability Reports]".toList,
        "1001 0 5 true".toList] (by decide) (by decide)).1 (by decide),
   by decide⟩

end ChargerUptime
